import Mathlib

/-!
Shallow embedding of the genealogical graph engine of the FamilyTree
repository (`src/services/geminiService.ts` and its type declarations):
the GEDCOM parser, the tree builders, the BFS shortest path, the
ancestor-distance map, the path-peak routine and the relationship
resolver.  JavaScript `Record`s and `Map`s are modelled as insertion
ordered association lists; JavaScript `undefined` is modelled with
`Option`; JavaScript string truthiness (`undefined` and `""` are falsy)
is modelled explicitly where the source tests it.
-/

namespace FamilyTree

/-- `GedcomEvent` from `types.ts`: optional date, optional place, a type
tag (the TS union of literals is modelled as a plain string). -/
structure GedcomEvent where
  date : Option String
  place : Option String
  type : String
  deriving Repr, DecidableEq

/-- `Person` from `types.ts`.  `fams` is declared optional in TS but an
absent array behaves exactly like the empty array in every use in the
source (`person.fams?.push`, `if (person.fams)`, `person.fams?.some`),
so it is modelled as a plain list.  `sex` is modelled as a string (the
source writes `value as 'M'|'F'|'U'`, an unchecked cast). -/
structure Person where
  id : String
  name : String
  surname : String
  sex : String
  birth : Option GedcomEvent
  death : Option GedcomEvent
  famc : Option String
  fams : List String
  notes : Option String
  imageUrl : String
  deriving Repr, DecidableEq

/-- `Family` from `types.ts`. -/
structure Family where
  id : String
  husb : Option String
  wife : Option String
  children : List String
  marr : Option GedcomEvent
  deriving Repr, DecidableEq

/-- `GedcomData` from `types.ts`: the two id-keyed records, modelled as
insertion-ordered association lists (the unused `head?` field is
omitted). -/
structure GedcomData where
  people : List (String × Person)
  families : List (String × Family)
  deriving Repr, DecidableEq

/-- `TreeNodeDatum` from `types.ts`.  `children?` and `isSpouse?` are
optional in TS; the builders always initialise `children` to `[]` and an
absent `isSpouse` is falsy like `false`. -/
inductive TreeNodeDatum where
  | mk (id : String) (name : String) (data : Person) (children : List TreeNodeDatum)
      (isSpouse : Bool)

def TreeNodeDatum.id : TreeNodeDatum → String
  | .mk i _ _ _ _ => i

def TreeNodeDatum.name : TreeNodeDatum → String
  | .mk _ n _ _ _ => n

def TreeNodeDatum.data : TreeNodeDatum → Person
  | .mk _ _ d _ _ => d

def TreeNodeDatum.children : TreeNodeDatum → List TreeNodeDatum
  | .mk _ _ _ c _ => c

def TreeNodeDatum.isSpouse : TreeNodeDatum → Bool
  | .mk _ _ _ _ s => s

/-- Indexing a JS record / `Map` by key: first entry with that key. -/
def lookupStr {α : Type} (m : List (String × α)) (k : String) : Option α :=
  (m.find? (fun kv => kv.1 == k)).map (fun kv => kv.2)

/-- `data.people[id]`. -/
def findPerson (data : GedcomData) (id : String) : Option Person :=
  lookupStr data.people id

/-- `data.families[id]`. -/
def findFamily (data : GedcomData) (id : String) : Option Family :=
  lookupStr data.families id

/-- JS truthiness of a `string | undefined` value: `undefined` and the
empty string are falsy. -/
def truthyOptS : Option String → Option String
  | none => none
  | some s => if s = "" then none else some s

/-- `if (x) list.push(x)` for a `string | undefined` value `x`. -/
def truthyToList (o : Option String) : List String :=
  match truthyOptS o with
  | none => []
  | some s => [s]

/-- The neighbor list built by one iteration of the BFS loop of
`findShortestPath` for the dequeued person `id`:
parents, siblings (all children of the `famc` family, the person itself
included in the source list), and via each `fams` family the other
spouse and all children. -/
def neighborIds (data : GedcomData) (id : String) (person : Person) : List String :=
  (match truthyOptS person.famc with
   | none => []
   | some fid =>
     match findFamily data fid with
     | none => []
     | some fam => truthyToList fam.husb ++ truthyToList fam.wife ++ fam.children) ++
  person.fams.flatMap (fun famId =>
    match findFamily data famId with
    | none => []
    | some fam =>
      (truthyToList fam.husb).filter (fun h => h ≠ id) ++
      (truthyToList fam.wife).filter (fun w => w ≠ id) ++
      fam.children)

/-- The inner `for (const neighborId of neighbors)` loop of
`findShortestPath`: early-returns `path ++ [neighborId]` when the
target is met, otherwise enqueues unvisited neighbors (marking them
visited).  Returns (early result if any, visited set, queue). -/
def processNeighbors (targetId : String) (path : List String) :
    List String → List String → List (String × List String) →
    Option (List String) × List String × List (String × List String)
  | [], visited, queue => (none, visited, queue)
  | n :: ns, visited, queue =>
    if n = targetId then (some (path ++ [n]), visited, queue)
    else if n ∈ visited then processNeighbors targetId path ns visited queue
    else processNeighbors targetId path ns (n :: visited) (queue ++ [(n, path ++ [n])])

/-- The `while (queue.length > 0)` loop of `findShortestPath`, with an
explicit fuel; `none` marks fuel exhaustion (never reached with the fuel
chosen below, see `bfsLoop_ne_none`). -/
def bfsLoop (data : GedcomData) (targetId : String) :
    Nat → List (String × List String) → List String → Option (List String)
  | _, [], _ => some []
  | 0, _ :: _, _ => none
  | fuel + 1, (id, path) :: rest, visited =>
    match findPerson data id with
    | none => bfsLoop data targetId fuel rest visited
    | some person =>
      match processNeighbors targetId path (neighborIds data id person) visited rest with
      | (some result, _, _) => some result
      | (none, visited2, queue2) => bfsLoop data targetId fuel queue2 visited2

/-- Every id a family record can contribute to a neighbor list. -/
def idUniverse (data : GedcomData) : List String :=
  data.families.flatMap (fun kv =>
    truthyToList kv.2.husb ++ truthyToList kv.2.wife ++ kv.2.children)

/-- Fuel sufficient for the BFS loop (shown sufficient in
`bfsLoop_ne_none`). -/
def bfsFuel (data : GedcomData) : Nat :=
  2 * (idUniverse data).dedup.length + 1

/-- `findShortestPath` from `geminiService.ts`. -/
def findShortestPath (data : GedcomData) (startId targetId : String) : List String :=
  if startId = targetId then [startId]
  else (bfsLoop data targetId (bfsFuel data) [(startId, [startId])] [startId]).getD []

/-- Helper of `getPathPeak`'s first loop: is `currId` listed as husband
or wife of the `famc` family of the person found under `otherId`?
(`prev?.famc` is truthiness-tested in the source; the `===` comparisons
compare possibly-undefined strings, i.e. `Option`s.) -/
def isParentOf (data : GedcomData) (currId otherId : String) : Bool :=
  match findPerson data otherId with
  | none => false
  | some other =>
    match truthyOptS other.famc with
    | none => false
    | some fid =>
      match findFamily data fid with
      | none => false
      | some fam => fam.husb == some currId || fam.wife == some currId

/-- First loop of `getPathPeak`: the first index whose element is a
parent of both its truthy predecessor and its truthy successor. -/
def peakApex (data : GedcomData) (path : List String) : Option String :=
  (List.range path.length).findSome? (fun i =>
    let currId := path.getD i ""
    match findPerson data currId with
    | none => none
    | some _ =>
      let prevId := if i = 0 then none else truthyOptS (path.get? (i - 1))
      let nextId := truthyOptS (path.get? (i + 1))
      match prevId, nextId with
      | some p, some n =>
        if isParentOf data currId p && isParentOf data currId n then some currId else none
      | _, _ => none)

/-- One iteration of the second loop of `getPathPeak` at index `i`:
`none` means `continue`; otherwise the loop exits with the given
result.  The source reads `current.famc` without a null check, so a
path element absent from `people` throws a `TypeError`, modelled by
`Except.error ()`.  (`fam.husb === next?.id` compares two
possibly-undefined strings, i.e. `Option`s.) -/
def peakStep (data : GedcomData) (path : List String) (i : Nat) :
    Option (Except Unit String) :=
  match findPerson data (path.getD i "") with
  | none => some (Except.error ())
  | some current =>
    let next := findPerson data (path.getD (i + 1) "")
    match truthyOptS current.famc with
    | none => some (Except.ok current.id)
    | some fid =>
      match findFamily data fid with
      | none => some (Except.ok current.id)
      | some fam =>
        if fam.husb == next.map Person.id || fam.wife == next.map Person.id then none
        else some (Except.ok current.id)

/-- Second loop of `getPathPeak`: run `peakStep` over
`i = 0 .. path.length - 2` in order, return at the first non-`continue`
iteration, and fall back to `path[0]` after the loop.  Each iteration
reads only `path` and `data` at `i`, so the loop is exactly this
first-hit scan. -/
def peakClimb (data : GedcomData) (path : List String) : Except Unit String :=
  ((List.range (path.length - 1)).findSome? (peakStep data path)).getD
    (Except.ok (path.getD 0 ""))

/-- `getPathPeak` from `geminiService.ts`.  `Except.error ()` models the
uncaught `TypeError` thrown by the second loop on a dangling person id. -/
def getPathPeak (data : GedcomData) (path : List String) : Except Unit String :=
  if path.length = 0 then Except.ok ""
  else
    match peakApex data path with
    | some apex => Except.ok apex
    | none => peakClimb data path

/-- The ids enqueued for the dequeued entry `id` by `getAncestors`:
the truthy husband and wife of the person's truthy `famc` family. -/
def parentIds (data : GedcomData) (id : String) : List String :=
  match findPerson data id with
  | none => []
  | some person =>
    match truthyOptS person.famc with
    | none => []
    | some fid =>
      match findFamily data fid with
      | none => []
      | some fam => truthyToList fam.husb ++ truthyToList fam.wife

/-- The `while (queue.length > 0)` loop of `getAncestors` with explicit
fuel (`none` marks fuel exhaustion; see `ancLoop_ne_none`).  The
`ancestors` JS `Map` is an insertion-ordered association list. -/
def ancLoop (data : GedcomData) :
    Nat → List (String × Nat) → List (String × Nat) → Option (List (String × Nat))
  | _, [], anc => some anc
  | 0, _ :: _, _ => none
  | fuel + 1, (id, dist) :: rest, anc =>
    if (lookupStr anc id).isSome then ancLoop data fuel rest anc
    else
      ancLoop data fuel (rest ++ (parentIds data id).map (fun pid => (pid, dist + 1)))
        (anc ++ [(id, dist)])

/-- Fuel sufficient for the ancestor loop (see `ancLoop_ne_none`). -/
def ancFuel (data : GedcomData) (startId : String) : Nat :=
  3 * ((startId :: idUniverse data).dedup.length) + 1

/-- `getAncestors` from `geminiService.ts`. -/
def getAncestors (data : GedcomData) (startId : String) : List (String × Nat) :=
  (ancLoop data (ancFuel data startId) [(startId, 0)] []).getD []

/-- Step 1 of `getRelationshipName`: the direct-spouse check. -/
def directSpouse (data : GedcomData) (baseId targetId : String) : Bool :=
  match findPerson data baseId with
  | none => false
  | some base =>
    base.fams.any (fun famId =>
      match findFamily data famId with
      | none => false
      | some fam => fam.husb == some targetId || fam.wife == some targetId)

/-- `distBase + distTarget < minSum` where `minSum` starts at
`Infinity` (modelled by `none`). -/
def ltInf (n : Nat) : Option Nat → Bool
  | none => true
  | some m => decide (n < m)

/-- The minimisation loop of `getRelationshipName` over the entries of
the base ancestor map, in insertion order. -/
def lcaScan (ansT : List (String × Nat)) :
    List (String × Nat) → Option String → Option Nat → Option String × Option Nat
  | [], lcaId, minSum => (lcaId, minSum)
  | (id, distBase) :: rest, lcaId, minSum =>
    match lookupStr ansT id with
    | none => lcaScan ansT rest lcaId minSum
    | some distTarget =>
      if ltInf (distBase + distTarget) minSum then
        lcaScan ansT rest (some id) (some (distBase + distTarget))
      else lcaScan ansT rest lcaId minSum

/-- The classification chain of `getRelationshipName` on the pair
(steps up from base to the chosen common ancestor, steps down from it
to the target). -/
def bandLabel (dUp dDown : Nat) : String :=
  if dUp = 0 && dDown = 1 then "Filho(a)"
  else if dUp = 0 && dDown = 2 then "Neto(a)"
  else if dUp = 0 && dDown = 3 then "Bisneto(a)"
  else if dUp = 0 && dDown > 3 then toString (dDown - 2) ++ "º Neto(a)"
  else if dUp = 1 && dDown = 0 then "Pai/Mãe"
  else if dUp = 2 && dDown = 0 then "Avô/Avó"
  else if dUp = 3 && dDown = 0 then "Bisavô/Bisavó"
  else if dUp > 3 && dDown = 0 then toString (dUp - 2) ++ "º Avô/Avó"
  else if dUp = 1 && dDown = 1 then "Irmão/Irmã"
  else if dUp = 2 && dDown = 1 then "Tio(a)"
  else if dUp = 1 && dDown = 2 then "Sobrinho(a)"
  else if dUp = 3 && dDown = 1 then "Tio-avô/Tia-avó"
  else if dUp = 1 && dDown = 3 then "Sobrinho-neto(a)"
  else if dUp = 2 && dDown = 2 then "Primo(a)"
  else if dUp = 3 && dDown = 3 then "Primo(a) de 2º Grau"
  else if dUp > 2 && dDown > 2 then "Primo(a) Distante"
  else "Parente Consanguíneo"

/-- `getRelationshipName` from `geminiService.ts`.  `if (lcaId)` tests
JS truthiness of the `string | null` accumulator, hence `truthyOptS`.
The `.get(lcaId)!` non-null assertions are modelled by `.getD 0`; the
chosen id is a key of both maps, so the lookups always succeed. -/
def getRelationshipName (data : GedcomData) (baseId targetId : String) : String :=
  if baseId = targetId then "Você (Pessoa Principal)"
  else if directSpouse data baseId targetId then "Esposo(a)"
  else
    let ansB := getAncestors data baseId
    let ansT := getAncestors data targetId
    match truthyOptS (lcaScan ansT ansB none none).1 with
    | some lca =>
      bandLabel ((lookupStr ansB lca).getD 0) ((lookupStr ansT lca).getD 0)
    | none =>
      if (findShortestPath data baseId targetId).length > 0 then "Parente por Casamento"
      else "Sem relação direta"

/-- The node literal built by both tree builders:
`{ id: person.id, name: person.name person.surname, data: person, children }`. -/
def mkNode (person : Person) (children : List TreeNodeDatum) : TreeNodeDatum :=
  TreeNodeDatum.mk person.id (person.name ++ " " ++ person.surname) person children false

/-- Fuel sufficient for the depth-bounded tree recursions (shown
sufficient in `buildAncestryTreeF_ne_none`). -/
def depthFuel (currentDepth maxDepth : Int) : Nat :=
  (maxDepth + 1 - currentDepth).toNat + 1

/-- `buildAncestryTree` with explicit fuel; outer `none` marks fuel
exhaustion, `some none` is the source's `null`.  Depths are integers
(JS numbers; a negative `maxDepth` is allowed). -/
def buildAncestryTreeF (data : GedcomData) (highlightedPath : List String) :
    Nat → String → Int → Int → Option (Option TreeNodeDatum)
  | 0, _, _, _ => none
  | fuel + 1, personId, currentDepth, maxDepth =>
    match findPerson data personId with
    | none => some none
    | some person =>
      if currentDepth > maxDepth then some none
      else
        match truthyOptS person.famc with
        | none => some (some (mkNode person []))
        | some fid =>
          match findFamily data fid with
          | none => some (some (mkNode person []))
          | some family =>
            match (match truthyOptS family.husb with
                   | none => some none
                   | some h =>
                     buildAncestryTreeF data highlightedPath fuel h (currentDepth + 1) maxDepth) with
            | none => none
            | some fatherOpt =>
              match (match truthyOptS family.wife with
                     | none => some none
                     | some w =>
                       buildAncestryTreeF data highlightedPath fuel w (currentDepth + 1) maxDepth) with
              | none => none
              | some motherOpt =>
                some (some (mkNode person (fatherOpt.toList ++ motherOpt.toList)))

/-- `buildAncestryTree` from `geminiService.ts` (its `highlightedPath`
parameter is accepted and unused, as in the source). -/
def buildAncestryTree (personId : String) (data : GedcomData)
    (currentDepth maxDepth : Int) (highlightedPath : List String) : Option TreeNodeDatum :=
  (buildAncestryTreeF data highlightedPath (depthFuel currentDepth maxDepth)
    personId currentDepth maxDepth).getD none

/-- Phase 1 of `buildDescendantsTree`: fold over the concatenated child
lists of all `fams` families, skipping ids already in `addedIds` and
children whose recursive build returned `null`.  The outer `none`
propagates fuel exhaustion of the recursive builder `F`. -/
def descChildFold (F : String → Option (Option TreeNodeDatum)) :
    List String → List String × List TreeNodeDatum →
    Option (List String × List TreeNodeDatum)
  | [], acc => some acc
  | childId :: rest, (added, nodes) =>
    if childId ∈ added then descChildFold F rest (added, nodes)
    else
      match F childId with
      | none => none
      | some none => descChildFold F rest (added, nodes)
      | some (some childNode) => descChildFold F rest (childId :: added, nodes ++ [childNode])

/-- `spouseNode.isSpouse = true`. -/
def setSpouseFlag : TreeNodeDatum → TreeNodeDatum
  | .mk i n d c _ => .mk i n d c true

/-- Phase 2 of `buildDescendantsTree` (the path-tracing injection):
fold over the truthy path neighbors, injecting each one that is a
spouse via a shared `fams` family and not yet added. -/
def descSpouseFold (data : GedcomData) (person : Person)
    (F : String → Option (Option TreeNodeDatum)) :
    List String → List String × List TreeNodeDatum →
    Option (List String × List TreeNodeDatum)
  | [], acc => some acc
  | targetId :: rest, (added, nodes) =>
    if targetId ∈ added then descSpouseFold data person F rest (added, nodes)
    else if person.fams.any (fun famId =>
        match findFamily data famId with
        | none => false
        | some fam => fam.husb == some targetId || fam.wife == some targetId) then
      match F targetId with
      | none => none
      | some none => descSpouseFold data person F rest (added, nodes)
      | some (some spouseNode) =>
        descSpouseFold data person F rest (targetId :: added, nodes ++ [setSpouseFlag spouseNode])
    else descSpouseFold data person F rest (added, nodes)

/-- `buildDescendantsTree` with explicit fuel; outer `none` marks fuel
exhaustion, `some none` is the source's `null`. -/
def buildDescendantsTreeF (data : GedcomData) (highlightedPath : List String) :
    Nat → String → Int → Int → Option (Option TreeNodeDatum)
  | 0, _, _, _ => none
  | fuel + 1, personId, currentDepth, maxDepth =>
    match findPerson data personId with
    | none => some none
    | some person =>
      if currentDepth > maxDepth then some none
      else
        match descChildFold
            (fun cid => buildDescendantsTreeF data highlightedPath fuel cid
              (currentDepth + 1) maxDepth)
            (person.fams.flatMap (fun famId =>
              match findFamily data famId with
              | none => []
              | some fam => fam.children))
            ([], []) with
        | none => none
        | some (added, nodes) =>
          if highlightedPath.length > 0 ∧ personId ∈ highlightedPath then
            let i := highlightedPath.indexOf personId
            match descSpouseFold data person
                (fun tid => buildDescendantsTreeF data highlightedPath fuel tid
                  (currentDepth + 1) maxDepth)
                (truthyToList (highlightedPath.get? (i + 1)) ++
                 truthyToList (if i = 0 then none else highlightedPath.get? (i - 1)))
                (added, nodes) with
            | none => none
            | some (_, nodes2) => some (some (mkNode person nodes2))
          else some (some (mkNode person nodes))

/-- `buildDescendantsTree` from `geminiService.ts`. -/
def buildDescendantsTree (personId : String) (data : GedcomData)
    (currentDepth maxDepth : Int) (highlightedPath : List String) : Option TreeNodeDatum :=
  (buildDescendantsTreeF data highlightedPath (depthFuel currentDepth maxDepth)
    personId currentDepth maxDepth).getD none

/-- JS `string.split(sep)` for a one-character separator (the source
only ever splits on `'\n'`, `' '` and `'/'`): splitting keeps empty
segments, and splitting the empty string yields `[""]`. -/
def splitChar (c : Char) : List Char → List (List Char)
  | [] => [[]]
  | x :: xs =>
    match splitChar c xs with
    | [] => [[]]
    | g :: gs => if x = c then [] :: g :: gs else (x :: g) :: gs

/-- JS `string.split(c)` on a `String`. -/
def jsSplit (s : String) (c : Char) : List String :=
  (splitChar c s.data).map String.mk

/-- JS `string.trim()`: strip leading and trailing whitespace. -/
def jsTrim (s : String) : String :=
  String.mk (((s.data.dropWhile Char.isWhitespace).reverse.dropWhile
    Char.isWhitespace).reverse)

/-- Mutable parser state of `parseGedcom`: the two records under
construction plus `currentId`, `currentType` and `currentTag` (the last
holds `parts[1]`, which can be `undefined`, hence `Option`). -/
structure ParseState where
  people : List (String × Person)
  families : List (String × Family)
  currentId : String
  currentType : String
  currentTag : Option String
  deriving Repr, DecidableEq

/-- JS record assignment `m[k] = v`: overwrite in place or append. -/
def upsert {α : Type} (m : List (String × α)) (k : String) (v : α) : List (String × α) :=
  if m.any (fun kv => kv.1 == k) then
    m.map (fun kv => if kv.1 == k then (kv.1, v) else kv)
  else m ++ [(k, v)]

/-- Field mutation through `const person = people[currentId]`: update
the record value in place.  (When the key is absent this is a no-op;
the source would throw there, but `parseGedcom` always inserts a record
before any line can mutate it.) -/
def updateAt {α : Type} (m : List (String × α)) (k : String) (f : α → α) :
    List (String × α) :=
  m.map (fun kv => if kv.1 == k then (kv.1, f kv.2) else kv)

/-- The fresh person record opened for a level-0 `INDI` line. -/
def defaultPerson (id : String) : Person :=
  { id := id, name := "Unknown", surname := "", sex := "U", birth := none, death := none,
    famc := none, fams := [], notes := none, imageUrl := "" }

/-- The fresh family record opened for a level-0 `FAM` line. -/
def defaultFamily (id : String) : Family :=
  { id := id, husb := none, wife := none, children := [], marr := none }

/-- `parts[0]` of a line: its level field. -/
def lineLevel (line : String) : String :=
  (jsSplit line ' ').headD ""

/-- `parts[1]` of a line: tag or record id (`undefined` when absent). -/
def lineTag (line : String) : Option String :=
  (jsSplit line ' ').get? 1

/-- `parts.slice(2).join(' ')` of a line. -/
def lineValue (line : String) : String :=
  String.intercalate " " ((jsSplit line ' ').drop 2)

/-- One iteration of the `lines.forEach` body of `parseGedcom`. -/
def parseLine (st : ParseState) (line : String) : ParseState :=
  let level := lineLevel line
  let tagOrId := lineTag line
  let value := lineValue line
  if level = "0" then
    if value = "INDI" then
      let cid := tagOrId.getD ""
      { st with people := upsert st.people cid (defaultPerson cid),
                currentId := cid, currentType := "INDI" }
    else if value = "FAM" then
      let cid := tagOrId.getD ""
      { st with families := upsert st.families cid (defaultFamily cid),
                currentId := cid, currentType := "FAM" }
    else { st with currentType := "" }
  else if st.currentType = "INDI" then
    if level = "1" then
      let st1 := { st with currentTag := tagOrId }
      if tagOrId = some "NAME" then
        { st1 with people := updateAt st1.people st1.currentId (fun p =>
            let nameParts := jsSplit value '/'
            { p with name := jsTrim (nameParts.getD 0 ""),
                     surname := jsTrim ((nameParts.get? 1).getD "") }) }
      else if tagOrId = some "SEX" then
        { st1 with people := updateAt st1.people st1.currentId (fun p => { p with sex := value }) }
      else if tagOrId = some "FAMC" then
        { st1 with people := updateAt st1.people st1.currentId (fun p => { p with famc := some value }) }
      else if tagOrId = some "FAMS" then
        { st1 with people := updateAt st1.people st1.currentId (fun p => { p with fams := p.fams ++ [value] }) }
      else if tagOrId = some "BIRT" then
        { st1 with people := updateAt st1.people st1.currentId (fun p =>
            { p with birth := some { date := none, place := none, type := "BIRT" } }) }
      else if tagOrId = some "DEAT" then
        { st1 with people := updateAt st1.people st1.currentId (fun p =>
            { p with death := some { date := none, place := none, type := "DEAT" } }) }
      else st1
    else if level = "2" then
      { st with people := updateAt st.people st.currentId (fun p0 =>
          let p1 :=
            if st.currentTag = some "BIRT" then
              match p0.birth with
              | none => p0
              | some b =>
                if tagOrId = some "DATE" then { p0 with birth := some { b with date := some value } }
                else if tagOrId = some "PLAC" then { p0 with birth := some { b with place := some value } }
                else p0
            else p0
          let p2 :=
            if st.currentTag = some "DEAT" then
              match p1.death with
              | none => p1
              | some d =>
                if tagOrId = some "DATE" then { p1 with death := some { d with date := some value } }
                else if tagOrId = some "PLAC" then { p1 with death := some { d with place := some value } }
                else p1
            else p1
          if st.currentTag = some "OBJE" && tagOrId == some "FILE" then
            { p2 with imageUrl := value }
          else p2) }
    else st
  else if st.currentType = "FAM" then
    if level = "1" then
      if tagOrId = some "HUSB" then
        { st with families := updateAt st.families st.currentId (fun f => { f with husb := some value }) }
      else if tagOrId = some "WIFE" then
        { st with families := updateAt st.families st.currentId (fun f => { f with wife := some value }) }
      else if tagOrId = some "CHIL" then
        { st with families := updateAt st.families st.currentId (fun f => { f with children := f.children ++ [value] }) }
      else st
    else st
  else st

/-- `parseGedcom` from `geminiService.ts`: trim lines, drop blanks,
fold the line handler over them. -/
def parseGedcom (content : String) : GedcomData :=
  let lines := ((jsSplit content '\n').map jsTrim).filter (fun l => l.length > 0)
  let st := lines.foldl parseLine
    { people := [], families := [], currentId := "", currentType := "", currentTag := some "" }
  { people := st.people, families := st.families }

/-! ### Association-list lemmas -/

theorem lookupStr_updateAt_self {α : Type} (m : List (String × α)) (k : String) (f : α → α) :
    lookupStr (updateAt m k f) k = (lookupStr m k).map f := by
  induction m with
  | nil => rfl
  | cons kv rest ih =>
    by_cases h : kv.1 = k
    · simp [lookupStr, updateAt, List.find?_cons, h]
    · simp only [lookupStr, updateAt, List.map_cons, List.find?_cons] at ih ⊢
      simp only [h, if_neg, beq_iff_eq, if_false]
      rw [show (kv.1 == k) = false by simp [h]]
      simpa [updateAt] using ih

theorem lookupStr_some_mem {α : Type} {m : List (String × α)} {k : String} {v : α}
    (h : lookupStr m k = some v) : (k, v) ∈ m := by
  induction m with
  | nil => simp [lookupStr] at h
  | cons kv rest ih =>
    by_cases hk : kv.1 = k
    · simp only [lookupStr, List.find?_cons] at h
      rw [show (kv.1 == k) = true by simp [hk]] at h
      simp only [Option.map_some'] at h
      cases kv
      simp only [Option.some.injEq] at h
      simp_all
    · simp only [lookupStr, List.find?_cons] at h
      rw [show (kv.1 == k) = false by simp [hk]] at h
      exact List.mem_cons_of_mem _ (ih h)

theorem mem_lookupStr_nodup {α : Type} {m : List (String × α)} {k : String} {v : α}
    (hnd : (m.map (fun kv => kv.1)).Nodup) (h : (k, v) ∈ m) : lookupStr m k = some v := by
  induction m with
  | nil => simp at h
  | cons kv rest ih =>
    simp only [List.map_cons, List.nodup_cons] at hnd
    rcases List.mem_cons.mp h with heq | hmem
    · subst heq
      simp [lookupStr, List.find?_cons]
    · have hne : kv.1 ≠ k := by
        intro hcontra
        exact hnd.1 (hcontra ▸ (List.mem_map.mpr ⟨(k, v), hmem, rfl⟩))
      simp only [lookupStr, List.find?_cons]
      rw [show (kv.1 == k) = false by simp [hne]]
      exact ih hnd.2 hmem

theorem lookupStr_isSome_iff {α : Type} (m : List (String × α)) (k : String) :
    (lookupStr m k).isSome = true ↔ k ∈ m.map (fun kv => kv.1) := by
  induction m with
  | nil => simp [lookupStr]
  | cons kv rest ih =>
    by_cases hk : kv.1 = k
    · simp only [lookupStr, List.find?_cons]
      rw [show (kv.1 == k) = true by simp [hk]]
      simp [hk]
    · simp only [lookupStr, List.find?_cons]
      rw [show (kv.1 == k) = false by simp [hk]]
      simp only [List.map_cons, List.mem_cons]
      rw [← lookupStr]
      simp only [ih]
      constructor
      · exact Or.inr
      · rintro (h | h)
        · exact absurd h.symm hk
        · exact h

/-! ### C3: which FILE line wins under OBJE -/

/-- C3 counterexample: in a person record whose `OBJE` tag is followed
by the two level-2 lines `2 FILE a` and `2 FILE b` (and no further
level-1 tag), `parseGedcom` stores `"b"` — the value of the SECOND
`FILE` line — as the image reference, refuting the claim that the first
`FILE` wins. -/
theorem c3_counterexample :
    (findPerson (parseGedcom "0 @I1@ INDI\n1 OBJE\n2 FILE a\n2 FILE b") "@I1@").map
        Person.imageUrl = some "b" ∧ ("b" : String) ≠ "a" :=
  ⟨by decide, by decide⟩

/-- Processing one `2 FILE v` line in an open `INDI`/`OBJE` context
overwrites the current person record's image reference with `v`. -/
theorem parseLine_file (st : ParseState) (l : String)
    (htype : st.currentType = "INDI")
    (htag : st.currentTag = some "OBJE")
    (hlev : lineLevel l = "2") (htg : lineTag l = some "FILE") :
    parseLine st l =
      { st with people :=
          updateAt st.people st.currentId (fun p0 => { p0 with imageUrl := lineValue l }) } := by
  rw [parseLine]
  rw [hlev, htg, htype, htag]
  simp

/-- C3 amended: when a person record contains an `OBJE` tag followed by
one or more level-2 `FILE` lines before the next level-1 tag, the
person's image reference ends up holding the value of the LAST such
`FILE` line (each `FILE` line overwrites the previous value); the other
person fields are unchanged. -/
theorem c3_amended (st : ParseState) (p : Person) (lines : List String)
    (htype : st.currentType = "INDI")
    (htag : st.currentTag = some "OBJE")
    (hp : lookupStr st.people st.currentId = some p)
    (hne : lines ≠ [])
    (hfile : ∀ l ∈ lines, lineLevel l = "2" ∧ lineTag l = some "FILE") :
    lookupStr ((lines.foldl parseLine st).people) st.currentId =
      some { p with imageUrl := lineValue (lines.getLastD "") } := by
  induction lines generalizing st p with
  | nil => exact absurd rfl hne
  | cons l rest ih =>
    have hl := hfile l (List.mem_cons_self l rest)
    have hstep := parseLine_file st l htype htag hl.1 hl.2
    have hlook : lookupStr ((parseLine st l).people) st.currentId =
        some { p with imageUrl := lineValue l } := by
      rw [hstep]
      simp only [lookupStr_updateAt_self, hp, Option.map_some']
    cases rest with
    | nil =>
      simpa [List.getLastD] using hlook
    | cons l2 rest2 =>
      have hmain := ih (parseLine st l) { p with imageUrl := lineValue l }
        (by rw [hstep]; exact htype) (by rw [hstep]; exact htag)
        (by rw [hstep] at hlook ⊢; exact hlook)
        (by simp) (fun x hx => hfile x (List.mem_cons_of_mem _ hx))
      rw [List.foldl_cons]
      rw [show (parseLine st l).currentId = st.currentId by rw [hstep]] at hmain
      simpa [List.getLastD] using hmain


/-- Concrete instantiation of `c3_amended`: a state holding person
`@I1@` with an open `OBJE` tag, processing `2 FILE a` then `2 FILE b`
leaves the image reference of the last line. -/
theorem c3_amended_witness :
    lookupStr ((["2 FILE a", "2 FILE b"].foldl parseLine
        { people := [("@I1@", defaultPerson "@I1@")], families := [],
          currentId := "@I1@", currentType := "INDI", currentTag := some "OBJE" }).people)
      "@I1@" =
      some { defaultPerson "@I1@" with
             imageUrl := lineValue (["2 FILE a", "2 FILE b"].getLastD "") } :=
  c3_amended
    { people := [("@I1@", defaultPerson "@I1@")], families := [],
      currentId := "@I1@", currentType := "INDI", currentTag := some "OBJE" }
    (defaultPerson "@I1@") ["2 FILE a", "2 FILE b"] rfl rfl (by decide) (by decide)
    (by decide)

/-! ### Small concrete graphs used by counterexamples and witnesses -/

/-- Two siblings `a`, `b` in family `F` that has no recorded parents. -/
def sibData : GedcomData :=
  { people := [("a", { defaultPerson "a" with famc := some "F" }),
               ("b", { defaultPerson "b" with famc := some "F" })],
    families := [("F", { defaultFamily "F" with children := ["a", "b"] })] }

/-- Person `a` child of family `F1` whose husband reference `p` has no
person record of its own. -/
def lcaData : GedcomData :=
  { people := [("a", { defaultPerson "a" with famc := some "F1" })],
    families := [("F1", { defaultFamily "F1" with husb := some "p", children := ["a"] })] }

/-! ### C8: buildAncestryTree base cases -/

theorem buildAncestryTreeF_depth_exceeded (data : GedcomData) (hp : List String)
    (fuel : Nat) (personId : String) (c m : Int) (h : c > m) :
    buildAncestryTreeF data hp (fuel + 1) personId c m = some none := by
  rw [buildAncestryTreeF]
  cases findPerson data personId with
  | none => rfl
  | some person => simp [h]

/-- C8: `buildAncestryTree` on an id with a person record, current
depth 0 and maximum depth 0, returns a single node with no children;
with a negative maximum depth, or an id without a person record, it
returns `null`. -/
theorem c8_ancestry_base (data : GedcomData) (id : String) :
    ((findPerson data id).isSome = true →
      ∃ node, buildAncestryTree id data 0 0 [] = some node ∧ node.children = []) ∧
    (∀ maxDepth : Int, maxDepth < 0 → buildAncestryTree id data 0 maxDepth [] = none) ∧
    (∀ currentDepth maxDepth : Int, findPerson data id = none →
      buildAncestryTree id data currentDepth maxDepth [] = none) := by
  refine ⟨?_, ?_, ?_⟩
  · intro hp
    rw [Option.isSome_iff_exists] at hp
    obtain ⟨person, hperson⟩ := hp
    have hfuel : depthFuel 0 0 = 1 + 1 := by decide
    rw [buildAncestryTree, hfuel, buildAncestryTreeF, hperson]
    have hrec : ∀ x : String, buildAncestryTreeF data [] 1 x 1 0 = some none := fun x => by
      simpa using buildAncestryTreeF_depth_exceeded data [] 0 x 1 0 (by norm_num)
    cases hfamc : truthyOptS person.famc with
    | none => exact ⟨mkNode person [], by simp [hfamc], rfl⟩
    | some fid =>
      cases hfam : findFamily data fid with
      | none => exact ⟨mkNode person [], by simp [hfamc, hfam], rfl⟩
      | some family =>
        refine ⟨mkNode person [], ?_, rfl⟩
        simp only [hfamc, hfam, gt_iff_lt, lt_self_iff_false, if_false]
        cases hh : truthyOptS family.husb with
        | none =>
          cases hw : truthyOptS family.wife with
          | none => simp
          | some w => simp [hrec w]
        | some h2 =>
          cases hw : truthyOptS family.wife with
          | none => simp [hrec h2]
          | some w => simp [hrec h2, hrec w]
  · intro maxDepth hneg
    have hfuel : depthFuel 0 maxDepth = 0 + 1 := by
      simp only [depthFuel]
      omega
    rw [buildAncestryTree, hfuel, buildAncestryTreeF_depth_exceeded data [] 0 id 0 maxDepth
      (by omega)]
    rfl
  · intro c m hnone
    rw [buildAncestryTree]
    have : ∃ t, depthFuel c m = t + 1 := ⟨(m + 1 - c).toNat, rfl⟩
    obtain ⟨t, ht⟩ := this
    rw [ht, buildAncestryTreeF, hnone]
    rfl


/-- Concrete instantiation of `c8_ancestry_base` on `lcaData`. -/
theorem c8_ancestry_base_witness :
    (∃ node, buildAncestryTree "a" lcaData 0 0 [] = some node ∧ node.children = []) ∧
    buildAncestryTree "a" lcaData 0 (-1) [] = none ∧
    buildAncestryTree "zz" lcaData 3 5 [] = none :=
  ⟨(c8_ancestry_base lcaData "a").1 (by decide),
   (c8_ancestry_base lcaData "a").2.1 (-1) (by decide),
   (c8_ancestry_base lcaData "zz").2.2 3 5 (by decide)⟩

/-! ### C2: getPathPeak on dangling ids -/

/-- C2: `getPathPeak` is claimed never to raise, but on the empty graph
and the path `["@A@", "@B@"]` its second loop dereferences `famc` of an
absent person record, i.e. the source throws a `TypeError` (modelled as
`Except.error ()`). -/
theorem c2_path_peak_crash :
    getPathPeak { people := [], families := [] } ["@A@", "@B@"] = Except.error () := by
  rfl

/-! ### The BFS traversal relation -/

/-- One directed step of the adjacency explored by `findShortestPath`:
`x` has a person record and `y` is in its neighbor list. -/
def codeStep (data : GedcomData) (x y : String) : Prop :=
  ∃ p, findPerson data x = some p ∧ y ∈ neighborIds data x p

/-- Reachability along the BFS adjacency. -/
def Reaches (data : GedcomData) (a b : String) : Prop :=
  Relation.ReflTransGen (codeStep data) a b

theorem truthyToList_subset (o : Option String) (x : String) (h : x ∈ truthyToList o) :
    o = some x := by
  cases o with
  | none => simp [truthyToList, truthyOptS] at h
  | some s =>
    by_cases hs : s = ""
    · simp [truthyToList, truthyOptS, hs] at h
    · simp only [truthyToList, truthyOptS, hs, if_false, if_neg hs, List.mem_singleton] at h
      simp [h]

theorem mem_idUniverse_of_family {data : GedcomData} {fid : String} {fam : Family}
    (hfam : findFamily data fid = some fam) {y : String}
    (hy : y ∈ truthyToList fam.husb ++ truthyToList fam.wife ++ fam.children) :
    y ∈ idUniverse data := by
  have hmem : (fid, fam) ∈ data.families := lookupStr_some_mem hfam
  simp only [idUniverse, List.mem_flatMap]
  exact ⟨(fid, fam), hmem, by simpa using hy⟩

theorem neighborIds_subset_univ {data : GedcomData} {id : String} {p : Person}
    {y : String} (hy : y ∈ neighborIds data id p) : y ∈ idUniverse data := by
  simp only [neighborIds, List.mem_append] at hy
  rcases hy with hy | hy
  · rcases hfc : truthyOptS p.famc with _ | fid
    · simp [hfc] at hy
    · simp only [hfc] at hy
      rcases hff : findFamily data fid with _ | fam
      · simp [hff] at hy
      · simp only [hff] at hy
        exact mem_idUniverse_of_family hff hy
  · simp only [List.mem_flatMap] at hy
    obtain ⟨famId, _, hyf⟩ := hy
    rcases hff : findFamily data famId with _ | fam
    · simp [hff] at hyf
    · simp only [hff] at hyf
      refine mem_idUniverse_of_family hff ?_
      simp only [List.mem_append, List.mem_filter] at hyf
      simp only [List.mem_append]
      tauto

/-! ### Measure bookkeeping for the BFS fuel -/

/-- Number of ids in `univ` not yet visited. -/
def unvis (univ visited : List String) : Nat :=
  (univ.filter (fun x => decide (x ∉ visited))).length

theorem unvis_perm {univ univ2 : List String} (h : univ.Perm univ2) (v : List String) :
    unvis univ v = unvis univ2 v :=
  (h.filter _).length_eq

theorem unvis_cons (univ visited : List String) (n : String)
    (hnd : univ.Nodup) (hu : n ∈ univ) (hv : n ∉ visited) :
    unvis univ (n :: visited) + 1 = unvis univ visited := by
  have hperm := List.perm_cons_erase hu
  have hl : n ∉ univ.erase n := by
    have : (n :: univ.erase n).Nodup := hnd.perm hperm
    exact (List.nodup_cons.mp this).1
  rw [unvis_perm hperm, unvis_perm hperm]
  simp only [unvis, List.filter_cons]
  have hcong : List.filter (fun x => decide (x ∉ n :: visited)) (univ.erase n) =
      List.filter (fun x => decide (x ∉ visited)) (univ.erase n) := by
    apply List.filter_congr
    intro x hx
    have hxn : x ≠ n := fun hc => hl (hc ▸ hx)
    simp [List.mem_cons, hxn]
  rw [show decide (n ∉ n :: visited) = false by simp]
  rw [show decide (n ∉ visited) = true by simp [hv]]
  rw [hcong]
  simp

theorem unvis_mono (univ visited extra : List String)
    (hsub : ∀ x ∈ visited, x ∈ extra) :
    unvis univ extra ≤ unvis univ visited := by
  simp only [unvis]
  induction univ with
  | nil => simp
  | cons a rest ih =>
    simp only [List.filter_cons]
    by_cases hb : a ∈ visited
    · have ha : a ∈ extra := hsub a hb
      rw [show decide (a ∉ extra) = false by simp [ha],
        show decide (a ∉ visited) = false by simp [hb]]
      exact ih
    · by_cases ha : a ∈ extra
      · rw [show decide (a ∉ extra) = false by simp [ha],
          show decide (a ∉ visited) = true by simp [hb]]
        simp only [List.length_cons]
        exact le_trans ih (Nat.le_succ _)
      · rw [show decide (a ∉ extra) = true by simp [ha],
          show decide (a ∉ visited) = true by simp [hb]]
        simp only [List.length_cons]
        exact Nat.succ_le_succ ih

/-! ### processNeighbors bookkeeping -/

theorem pn_some {t : String} {p : List String} {ns v : List String}
    {q : List (String × List String)} {r : List String} {v2 : List String}
    {q2 : List (String × List String)}
    (h : processNeighbors t p ns v q = (some r, v2, q2)) :
    r = p ++ [t] ∧ t ∈ ns := by
  induction ns generalizing v q with
  | nil => simp [processNeighbors] at h
  | cons n rest ih =>
    rw [processNeighbors] at h
    by_cases hn : n = t
    · rw [if_pos hn] at h
      simp only [Prod.mk.injEq, Option.some.injEq] at h
      exact ⟨hn ▸ h.1.symm, by simp [hn]⟩
    · rw [if_neg hn] at h
      by_cases hv : n ∈ v
      · rw [if_pos hv] at h
        have := ih h
        exact ⟨this.1, List.mem_cons_of_mem _ this.2⟩
      · rw [if_neg hv] at h
        have := ih h
        exact ⟨this.1, List.mem_cons_of_mem _ this.2⟩

theorem pn_none {t : String} {p : List String} {ns v : List String}
    {q : List (String × List String)} {v2 : List String}
    {q2 : List (String × List String)}
    (h : processNeighbors t p ns v q = (none, v2, q2)) :
    (∀ x ∈ v, x ∈ v2) ∧
    (∀ x ∈ v2, x ∈ v ∨ (x ∈ ns ∧ x ≠ t)) ∧
    (∀ n ∈ ns, n ≠ t ∧ n ∈ v2) ∧
    (∀ e ∈ q2, e ∈ q ∨ ∃ n, n ∈ ns ∧ e = (n, p ++ [n]) ∧ n ≠ t ∧ n ∉ v) ∧
    (∀ e ∈ q, e ∈ q2) := by
  induction ns generalizing v q with
  | nil =>
    simp only [processNeighbors, Prod.mk.injEq] at h
    obtain ⟨_, hv, hq⟩ := h
    subst hv; subst hq
    exact ⟨fun x hx => hx, fun x hx => Or.inl hx, by simp, fun e he => Or.inl he,
      fun e he => he⟩
  | cons n rest ih =>
    rw [processNeighbors] at h
    by_cases hn : n = t
    · rw [if_pos hn] at h
      simp at h
    · rw [if_neg hn] at h
      by_cases hv : n ∈ v
      · rw [if_pos hv] at h
        obtain ⟨h1, h2, h3, h4, h5⟩ := ih h
        refine ⟨h1, ?_, ?_, ?_, h5⟩
        · intro x hx
          rcases h2 x hx with hx2 | hx2
          · exact Or.inl hx2
          · exact Or.inr ⟨List.mem_cons_of_mem _ hx2.1, hx2.2⟩
        · intro m hm
          rcases List.mem_cons.mp hm with heq | hmem
          · exact heq ▸ ⟨hn, h1 n hv⟩
          · exact ⟨(h3 m hmem).1, (h3 m hmem).2⟩
        · intro e he
          rcases h4 e he with he2 | ⟨m, hm, he2⟩
          · exact Or.inl he2
          · exact Or.inr ⟨m, List.mem_cons_of_mem _ hm, he2⟩
      · rw [if_neg hv] at h
        obtain ⟨h1, h2, h3, h4, h5⟩ := ih h
        have hnv2 : n ∈ v2 := h1 n (List.mem_cons_self n v)
        refine ⟨fun x hx => h1 x (List.mem_cons_of_mem _ hx), ?_, ?_, ?_, ?_⟩
        · intro x hx
          rcases h2 x hx with hx2 | hx2
          · rcases List.mem_cons.mp hx2 with heq | hmem
            · exact Or.inr ⟨heq ▸ List.mem_cons_self n rest, heq ▸ hn⟩
            · exact Or.inl hmem
          · exact Or.inr ⟨List.mem_cons_of_mem _ hx2.1, hx2.2⟩
        · intro m hm
          rcases List.mem_cons.mp hm with heq | hmem
          · exact heq ▸ ⟨hn, hnv2⟩
          · exact ⟨(h3 m hmem).1, (h3 m hmem).2⟩
        · intro e he
          rcases h4 e he with he2 | ⟨m, hm, he2, he3, he4⟩
          · rcases List.mem_append.mp he2 with he5 | he5
            · exact Or.inl he5
            · simp only [List.mem_singleton] at he5
              exact Or.inr ⟨n, List.mem_cons_self n rest, he5, hn, hv⟩
          · have : m ∉ v := fun hc => he4 (List.mem_cons_of_mem _ hc)
            refine Or.inr ⟨m, List.mem_cons_of_mem _ hm, he2, he3, this⟩
        · intro e he
          exact h5 e (List.mem_append_left _ he)

theorem pn_measure (data : GedcomData) {t : String} {p : List String} {ns v : List String}
    {q : List (String × List String)} {v2 : List String}
    {q2 : List (String × List String)}
    (h : processNeighbors t p ns v q = (none, v2, q2))
    (hns : ∀ n ∈ ns, n ∈ (idUniverse data).dedup) :
    q2.length + 2 * unvis (idUniverse data).dedup v2 ≤
      q.length + 2 * unvis (idUniverse data).dedup v := by
  induction ns generalizing v q with
  | nil =>
    simp only [processNeighbors, Prod.mk.injEq] at h
    obtain ⟨_, hv, hq⟩ := h
    subst hv; subst hq
    exact le_refl _
  | cons n rest ih =>
    rw [processNeighbors] at h
    by_cases hn : n = t
    · rw [if_pos hn] at h
      simp at h
    · rw [if_neg hn] at h
      by_cases hv : n ∈ v
      · rw [if_pos hv] at h
        exact ih h (fun m hm => hns m (List.mem_cons_of_mem _ hm))
      · rw [if_neg hv] at h
        have hd := ih h (fun m hm => hns m (List.mem_cons_of_mem _ hm))
        have hc := unvis_cons (idUniverse data).dedup v n (List.nodup_dedup _)
          (hns n (List.mem_cons_self n rest)) hv
        simp only [List.length_append, List.length_singleton] at hd
        omega

theorem pn_none_pushed {t : String} {p : List String} {ns v : List String}
    {q : List (String × List String)} {v2 : List String}
    {q2 : List (String × List String)}
    (h : processNeighbors t p ns v q = (none, v2, q2)) :
    ∀ n ∈ ns, n ∉ v → (n, p ++ [n]) ∈ q2 := by
  induction ns generalizing v q with
  | nil => simp
  | cons n rest ih =>
    rw [processNeighbors] at h
    by_cases hn : n = t
    · rw [if_pos hn] at h
      simp at h
    · rw [if_neg hn] at h
      by_cases hv : n ∈ v
      · rw [if_pos hv] at h
        intro m hm hmv
        rcases List.mem_cons.mp hm with heq | hmem
        · exact absurd (heq ▸ hv) hmv
        · exact ih h m hmem hmv
      · rw [if_neg hv] at h
        intro m hm hmv
        by_cases hmn : m = n
        · subst hmn
          exact (pn_none h).2.2.2.2 (m, p ++ [m]) (by simp)
        · rcases List.mem_cons.mp hm with heq | hmem
          · exact absurd heq hmn
          · exact ih h m hmem (by simp [hmv, hmn])

/-! ### The BFS loop: fuel sufficiency, soundness, completeness -/

/-- With fuel at least `queue length + 2 * (unvisited ids)`, the BFS
loop never runs out of fuel. -/
theorem bfsLoop_ne_none (data : GedcomData) (t : String) :
    ∀ (fuel : Nat) (q : List (String × List String)) (v : List String),
      q.length + 2 * unvis (idUniverse data).dedup v ≤ fuel →
      bfsLoop data t fuel q v ≠ none := by
  intro fuel
  induction fuel with
  | zero =>
    intro q v hm
    cases q with
    | nil => simp [bfsLoop]
    | cons e rest => simp at hm
  | succ f ih =>
    intro q v hm
    cases q with
    | nil => simp [bfsLoop]
    | cons e rest =>
      obtain ⟨id, path⟩ := e
      rw [bfsLoop]
      cases hp : findPerson data id with
      | none =>
        apply ih
        simp only [List.length_cons] at hm
        omega
      | some person =>
        rcases hres : processNeighbors t path (neighborIds data id person) v rest with
          ⟨res, v2, q2⟩
        cases res with
        | some r => simp [hres]
        | none =>
          simp only [hres]
          apply ih
          have hmeas := pn_measure data hres
            (fun n hn => List.mem_dedup.mpr (neighborIds_subset_univ hn))
          simp only [List.length_cons] at hm
          omega

/-- Invariant carried for every queue entry during the soundness
argument: the stored path is a nonempty duplicate-free `codeStep` chain
from the start to the entry's id, all inside the visited set. -/
def goodPath (data : GedcomData) (start : String) (visited : List String)
    (e : String × List String) : Prop :=
  e.2 ≠ [] ∧ e.2.head? = some start ∧ e.2.getLast? = some e.1 ∧
  List.Chain' (codeStep data) e.2 ∧ e.2.Nodup ∧ ∀ x ∈ e.2, x ∈ visited

theorem bfsLoop_sound (data : GedcomData) (start t : String) :
    ∀ (fuel : Nat) (q : List (String × List String)) (v : List String),
      t ∉ v →
      (∀ e ∈ q, goodPath data start v e) →
      ∀ r, bfsLoop data t fuel q v = some r → r ≠ [] →
        r.head? = some start ∧ r.getLast? = some t ∧
        List.Chain' (codeStep data) r ∧ r.Nodup := by
  intro fuel
  induction fuel with
  | zero =>
    intro q v _ _ r hr hne
    cases q with
    | nil => simp only [bfsLoop, Option.some.injEq] at hr; exact absurd hr.symm hne
    | cons e rest => simp [bfsLoop] at hr
  | succ f ih =>
    intro q v hv hq r hr hne
    cases q with
    | nil => simp only [bfsLoop, Option.some.injEq] at hr; exact absurd hr.symm hne
    | cons e rest =>
      obtain ⟨id, path⟩ := e
      rw [bfsLoop] at hr
      have hgood := hq (id, path) (List.mem_cons_self _ _)
      obtain ⟨hpne, hphead, hplast, hpchain, hpnd, hpvis⟩ := hgood
      cases hp : findPerson data id with
      | none =>
        simp only [hp] at hr
        exact ih rest v hv (fun e he => hq e (List.mem_cons_of_mem _ he)) r hr hne
      | some person =>
        simp only [hp] at hr
        rcases hres : processNeighbors t path (neighborIds data id person) v rest with
          ⟨res, v2, q2⟩
        simp only [hres] at hr
        cases res with
        | some result =>
          simp only [Option.some.injEq] at hr
          subst hr
          obtain ⟨hr1, hr2⟩ := pn_some hres
          subst hr1
          have hstep : codeStep data id t := ⟨person, hp, hr2⟩
          refine ⟨?_, ?_, ?_, ?_⟩
          · rw [List.head?_append, hphead]; rfl
          · exact List.getLast?_concat _
          · rw [List.chain'_append]
            refine ⟨hpchain, List.chain'_singleton t, ?_⟩
            intro x hx y hy
            simp only [List.head?_cons, Option.mem_def, Option.some.injEq] at hy
            rw [hplast] at hx
            simp only [Option.mem_def, Option.some.injEq] at hx
            subst hx; subst hy
            exact hstep
          · rw [List.nodup_append]
            exact ⟨hpnd, List.nodup_singleton t,
              fun x hx => by
                simp only [List.mem_singleton]
                intro hc
                exact hv (hc ▸ hpvis x hx)⟩
        | none =>
          obtain ⟨h1, h2, h3, h4, h5⟩ := pn_none hres
          apply ih q2 v2 ?_ ?_ r hr hne
          · intro hc
            rcases h2 t hc with hc2 | hc2
            · exact hv hc2
            · exact hc2.2 rfl
          · intro e2 he2
            rcases h4 e2 he2 with he3 | ⟨n, hn, he3, hn2, hn3⟩
            · have := hq e2 (List.mem_cons_of_mem _ he3)
              exact ⟨this.1, this.2.1, this.2.2.1, this.2.2.2.1, this.2.2.2.2.1,
                fun x hx => h1 x (this.2.2.2.2.2 x hx)⟩
            · subst he3
              refine ⟨by simp, ?_, ?_, ?_, ?_, ?_⟩
              · rw [List.head?_append, hphead]; rfl
              · exact List.getLast?_concat _
              · rw [List.chain'_append]
                refine ⟨hpchain, List.chain'_singleton n, ?_⟩
                intro x hx y hy
                simp only [List.head?_cons, Option.mem_def, Option.some.injEq] at hy
                rw [hplast] at hx
                simp only [Option.mem_def, Option.some.injEq] at hx
                subst hx; subst hy
                exact ⟨person, hp, hn⟩
              · rw [List.nodup_append]
                exact ⟨hpnd, List.nodup_singleton n,
                  fun x hx => by
                    simp only [List.mem_singleton]
                    intro hc
                    exact hn3 (hc ▸ hpvis x hx)⟩
              · intro x hx
                rcases List.mem_append.mp hx with hx2 | hx2
                · exact h1 x (hpvis x hx2)
                · simp only [List.mem_singleton] at hx2
                  exact hx2 ▸ (h3 n hn).2

/-- When an exhausted BFS reports no path (`some []`), the visited set
extends to a set `V` that contains everything visited, avoids the
target, and is closed under the adjacency. -/
theorem bfsLoop_complete (data : GedcomData) (t : String) :
    ∀ (fuel : Nat) (q : List (String × List String)) (v : List String),
      t ∉ v →
      (∀ e ∈ q, e.1 ∈ v) →
      (∀ x ∈ v, (∀ pth, (x, pth) ∉ q) → ∀ pe, findPerson data x = some pe →
        ∀ y ∈ neighborIds data x pe, y ∈ v) →
      bfsLoop data t fuel q v = some [] →
      ∃ V : List String, (∀ x ∈ v, x ∈ V) ∧ t ∉ V ∧
        (∀ x ∈ V, ∀ pe, findPerson data x = some pe →
          ∀ y ∈ neighborIds data x pe, y ∈ V) := by
  intro fuel
  induction fuel with
  | zero =>
    intro q v hv hq hcl hr
    cases q with
    | nil =>
      exact ⟨v, fun x hx => hx, hv, fun x hx pe hpe y hy =>
        hcl x hx (fun pth => by simp) pe hpe y hy⟩
    | cons e rest => simp [bfsLoop] at hr
  | succ f ih =>
    intro q v hv hq hcl hr
    cases q with
    | nil =>
      exact ⟨v, fun x hx => hx, hv, fun x hx pe hpe y hy =>
        hcl x hx (fun pth => by simp) pe hpe y hy⟩
    | cons e rest =>
      obtain ⟨id, path⟩ := e
      rw [bfsLoop] at hr
      cases hp : findPerson data id with
      | none =>
        simp only [hp] at hr
        refine ih rest v hv (fun e he => hq e (List.mem_cons_of_mem _ he)) ?_ hr
        intro x hx hxq pe hpe y hy
        by_cases hxid : x = id
        · rw [hxid, hp] at hpe; cases hpe
        · refine hcl x hx ?_ pe hpe y hy
          intro pth hpth
          rcases List.mem_cons.mp hpth with heq | hmem
          · exact hxid (by injection heq)
          · exact hxq pth hmem
      | some person =>
        simp only [hp] at hr
        rcases hres : processNeighbors t path (neighborIds data id person) v rest with
          ⟨res, v2, q2⟩
        simp only [hres] at hr
        cases res with
        | some result =>
          obtain ⟨hr1, _⟩ := pn_some hres
          simp only [Option.some.injEq] at hr
          rw [hr] at hr1
          simp at hr1
        | none =>
          obtain ⟨h1, h2, h3, h4, h5⟩ := pn_none hres
          have hmain := ih q2 v2 ?_ ?_ ?_ hr
          · obtain ⟨V, hV1, hV2, hV3⟩ := hmain
            exact ⟨V, fun x hx => hV1 x (h1 x hx), hV2, hV3⟩
          · intro hc
            rcases h2 t hc with hc2 | hc2
            · exact hv hc2
            · exact hc2.2 rfl
          · intro e2 he2
            rcases h4 e2 he2 with he3 | ⟨n, hn, he3, hn2, hn3⟩
            · exact h1 e2.1 (hq e2 (List.mem_cons_of_mem _ he3))
            · rw [he3]
              exact (h3 n hn).2
          · intro x hx hxq pe hpe y hy
            by_cases hxid : x = id
            · subst hxid
              rw [hp] at hpe
              injection hpe with hpe2
              subst hpe2
              exact (h3 y hy).2
            · by_cases hxv : x ∈ v
              · refine h1 y (hcl x hxv ?_ pe hpe y hy)
                intro pth hpth
                rcases List.mem_cons.mp hpth with heq | hmem
                · exact hxid (by injection heq)
                · exact hxq pth (h5 _ hmem)
              · rcases h2 x hx with hx2 | hx2
                · exact absurd hx2 hxv
                · exact absurd (pn_none_pushed hres x hx2.1 hxv) (hxq _)
/-! ### findShortestPath-level results -/

theorem initial_goodPath (data : GedcomData) (a : String) :
    ∀ e ∈ [(a, [a])], goodPath data a [a] e := by
  intro e he
  simp only [List.mem_singleton] at he
  subst he
  exact ⟨by simp, rfl, rfl, List.chain'_singleton a, List.nodup_singleton a, by simp⟩

theorem bfsLoop_run_ne_none (data : GedcomData) (a b : String) :
    bfsLoop data b (bfsFuel data) [(a, [a])] [a] ≠ none := by
  apply bfsLoop_ne_none
  have := List.length_filter_le (fun x => decide (x ∉ [a])) (idUniverse data).dedup
  simp only [bfsFuel, List.length_singleton, unvis]
  omega

/-- From a successful nonempty BFS run, the start reaches the target. -/
theorem reaches_of_run {data : GedcomData} {a b r0 : String} {r : List String}
    (hhead : (r0 :: r).head? = some a) (hlast : (r0 :: r).getLast? = some b)
    (hchain : List.Chain' (codeStep data) (r0 :: r)) : Reaches data a b := by
  have hr0 : r0 = a := by simpa using hhead
  subst hr0
  have hchain2 : List.Chain (codeStep data) r0 r := hchain
  refine List.relationReflTransGen_of_exists_chain r hchain2 ?_
  have hg := List.getLast?_eq_getLast (r0 :: r) (List.cons_ne_nil _ _)
  rw [hg] at hlast
  exact Option.some_injective _ hlast

/-- C10: the sequence returned by `findShortestPath` never repeats a
person id — every returned path is a simple path. -/
theorem c10_shortest_path_nodup (data : GedcomData) (a b : String) :
    (findShortestPath data a b).Nodup := by
  rw [findShortestPath]
  by_cases hab : a = b
  · simp [hab]
  · rw [if_neg hab]
    cases hres : bfsLoop data b (bfsFuel data) [(a, [a])] [a] with
    | none => simp
    | some r =>
      simp only [Option.getD_some]
      by_cases hne : r = []
      · simp [hne]
      · exact (bfsLoop_sound data a b (bfsFuel data) [(a, [a])] [a]
          (by simp [Ne.symm hab]) (initial_goodPath data a) r hres hne).2.2.2

/-- C1 amended: consecutive elements of any returned path are always
connected by one step of the BFS adjacency (`codeStep`): a parent edge,
a sibling edge (a co-child of the `famc` family), or a spouse/child
edge through a `fams` family. -/
theorem c1_amended_path_edges (data : GedcomData) (a b : String) :
    List.Chain' (codeStep data) (findShortestPath data a b) := by
  rw [findShortestPath]
  by_cases hab : a = b
  · simp [hab]
  · rw [if_neg hab]
    cases hres : bfsLoop data b (bfsFuel data) [(a, [a])] [a] with
    | none => simp
    | some r =>
      simp only [Option.getD_some]
      by_cases hne : r = []
      · simp [hne]
      · exact (bfsLoop_sound data a b (bfsFuel data) [(a, [a])] [a]
          (by simp [Ne.symm hab]) (initial_goodPath data a) r hres hne).2.2.1

/-- C4 amended: for person ids `a`, `b` present in the graph,
`findShortestPath` returns the empty sequence exactly when `b` is not
reachable from `a` along the BFS adjacency (which has parent/child,
spouse AND sibling edges). -/
theorem c4_amended_empty_iff (data : GedcomData) (a b : String)
    (_ha : (findPerson data a).isSome = true) (_hb : (findPerson data b).isSome = true) :
    findShortestPath data a b = [] ↔ ¬ Reaches data a b := by
  constructor
  · intro hempty hreach
    by_cases hab : a = b
    · rw [findShortestPath, if_pos hab] at hempty
      cases hempty
    · rw [findShortestPath, if_neg hab] at hempty
      cases hres : bfsLoop data b (bfsFuel data) [(a, [a])] [a] with
      | none => exact bfsLoop_run_ne_none data a b hres
      | some r =>
        rw [hres] at hempty
        simp only [Option.getD_some] at hempty
        subst hempty
        obtain ⟨V, hV1, hV2, hV3⟩ := bfsLoop_complete data b (bfsFuel data)
          [(a, [a])] [a] (by simp [Ne.symm hab]) (by simp)
          (by
            intro x hx hxq pe hpe y hy
            simp only [List.mem_singleton] at hx
            subst hx
            exact absurd (show (x, [x]) ∈ [(x, [x])] by simp) (hxq [x]))
          hres
        have hall : ∀ z, Reaches data a z → z ∈ V := by
          intro z hz
          induction hz with
          | refl => exact hV1 a (by simp)
          | tail _ hstep ihz =>
            obtain ⟨pe, hpe, hy⟩ := hstep
            exact hV3 _ ihz pe hpe _ hy
        exact hV2 (hall b hreach)
  · intro hnreach
    by_cases hab : a = b
    · exact absurd (hab ▸ Relation.ReflTransGen.refl) hnreach
    · rw [findShortestPath, if_neg hab]
      cases hres : bfsLoop data b (bfsFuel data) [(a, [a])] [a] with
      | none => simp
      | some r =>
        simp only [Option.getD_some]
        by_contra hne
        have hs := bfsLoop_sound data a b (bfsFuel data) [(a, [a])] [a]
          (by simp [Ne.symm hab]) (initial_goodPath data a) r hres hne
        obtain ⟨r0, rtl, rfl⟩ : ∃ r0 rtl, r = r0 :: rtl := by
          cases r with
          | nil => exact absurd rfl hne
          | cons r0 rtl => exact ⟨r0, rtl, rfl⟩
        exact hnreach (reaches_of_run hs.1 hs.2.1 hs.2.2.1)

/-! ### The claim's edge notions, and the sibling-step counterexamples -/

/-- The edge notion named by the claim: some family of the graph lists
one of the two ids as husband or wife and the other as a child. -/
def claimParentChildEdge (data : GedcomData) (x y : String) : Bool :=
  data.families.any (fun kv =>
    ((kv.2.husb == some x || kv.2.wife == some x) && kv.2.children.contains y) ||
    ((kv.2.husb == some y || kv.2.wife == some y) && kv.2.children.contains x))

/-- The claim's spouse edge: the two ids are the husband and the wife
of a shared family. -/
def claimSpouseEdge (data : GedcomData) (x y : String) : Bool :=
  data.families.any (fun kv =>
    (kv.2.husb == some x && kv.2.wife == some y) ||
    (kv.2.husb == some y && kv.2.wife == some x))

/-- Either edge of the claim, as a relation. -/
def claimEdge (data : GedcomData) (x y : String) : Prop :=
  claimParentChildEdge data x y = true ∨ claimSpouseEdge data x y = true

/-- C1 counterexample: on the parentless-family graph `sibData`,
`findShortestPath` returns the sibling step `["a", "b"]`, yet `a` and
`b` are connected by neither a parent/child edge nor a spouse edge. -/
theorem c1_counterexample :
    findShortestPath sibData "a" "b" = ["a", "b"] ∧
    claimParentChildEdge sibData "a" "b" = false ∧
    claimSpouseEdge sibData "a" "b" = false :=
  ⟨by decide, by rfl, by rfl⟩

theorem sibData_no_edge : ∀ x y : String, ¬ claimEdge sibData x y := by
  intro x y h
  rcases h with h | h
  · simp [claimParentChildEdge, sibData, defaultFamily] at h
  · simp [claimSpouseEdge, sibData, defaultFamily] at h

/-- C4 counterexample: on `sibData` the path `["a","b"]` is non-empty
although `b` is NOT reachable from `a` using only parent/child and
spouse edges — the BFS also walks sibling edges. -/
theorem c4_counterexample :
    findShortestPath sibData "a" "b" ≠ [] ∧
    ¬ Relation.ReflTransGen (claimEdge sibData) "a" "b" := by
  constructor
  · rw [show findShortestPath sibData "a" "b" = ["a", "b"] from by decide]
    simp
  · intro h
    rw [Relation.reflTransGen_iff_eq (fun c => sibData_no_edge "a" c)] at h
    exact absurd h (by decide)

/-- Concrete instantiation of `c4_amended_empty_iff` on `sibData`. -/
theorem c4_amended_witness :
    findShortestPath sibData "a" "b" = [] ↔ ¬ Reaches sibData "a" "b" :=
  c4_amended_empty_iff sibData "a" "b" (by decide) (by decide)

/-! ### C9: the loops never exhaust their fuel -/

theorem parentIds_subset_univ {data : GedcomData} {x y : String}
    (hy : y ∈ parentIds data x) : y ∈ idUniverse data := by
  rw [parentIds] at hy
  rcases hp : findPerson data x with _ | person
  · simp [hp] at hy
  · simp only [hp] at hy
    rcases hfc : truthyOptS person.famc with _ | fid
    · simp [hfc] at hy
    · simp only [hfc] at hy
      rcases hff : findFamily data fid with _ | fam
      · simp [hff] at hy
      · simp only [hff] at hy
        refine mem_idUniverse_of_family hff ?_
        simp only [List.mem_append] at hy ⊢
        tauto

theorem parentIds_length_le (data : GedcomData) (x : String) :
    (parentIds data x).length ≤ 2 := by
  have h1 : ∀ o : Option String, (truthyToList o).length ≤ 1 := by
    intro o
    rcases o with _ | s
    · simp [truthyToList, truthyOptS]
    · by_cases hs : s = "" <;> simp [truthyToList, truthyOptS, hs]
  rw [parentIds]
  rcases hp : findPerson data x with _ | person
  · simp [hp]
  · simp only [hp]
    rcases hfc : truthyOptS person.famc with _ | fid
    · simp [hfc]
    · simp only [hfc]
      rcases hff : findFamily data fid with _ | fam
      · simp [hff]
      · simp only [hff, List.length_append]
        have := h1 fam.husb
        have := h1 fam.wife
        omega

theorem unvis_congr (univ v1 v2 : List String) (h : ∀ x, x ∈ v1 ↔ x ∈ v2) :
    unvis univ v1 = unvis univ v2 := by
  simp only [unvis]
  rw [List.filter_congr]
  intro x _
  simp [h x]

/-- With fuel at least `queue length + 3 * (unvisited ids)`, the
ancestor loop never runs out of fuel. -/
theorem ancLoop_ne_none (data : GedcomData) (univ : List String)
    (hu : univ.Nodup) (hpar : ∀ x y, y ∈ parentIds data x → y ∈ univ) :
    ∀ (fuel : Nat) (q : List (String × Nat)) (anc : List (String × Nat)),
      (∀ e ∈ q, e.1 ∈ univ) →
      q.length + 3 * unvis univ (anc.map (fun kv => kv.1)) ≤ fuel →
      ancLoop data fuel q anc ≠ none := by
  intro fuel
  induction fuel with
  | zero =>
    intro q anc hq hm
    cases q with
    | nil => simp [ancLoop]
    | cons e rest => simp at hm
  | succ f ih =>
    intro q anc hq hm
    cases q with
    | nil => simp [ancLoop]
    | cons e rest =>
      obtain ⟨id, dist⟩ := e
      rw [ancLoop]
      by_cases hhas : (lookupStr anc id).isSome = true
      · rw [if_pos hhas]
        apply ih rest anc (fun e he => hq e (List.mem_cons_of_mem _ he))
        simp only [List.length_cons] at hm
        omega
      · rw [if_neg hhas]
        apply ih
        · intro e2 he2
          rcases List.mem_append.mp he2 with he3 | he3
          · exact hq e2 (List.mem_cons_of_mem _ he3)
          · obtain ⟨pid, hpid, rfl⟩ := List.mem_map.mp he3
            exact hpar id pid hpid
        · have hid : id ∉ anc.map (fun kv => kv.1) := by
            intro hc
            exact hhas ((lookupStr_isSome_iff anc id).mpr hc)
          have hidu : id ∈ univ := hq (id, dist) (List.mem_cons_self _ _)
          have hcons := unvis_cons univ (anc.map (fun kv => kv.1)) id hu hidu hid
          have hcong : unvis univ ((anc ++ [(id, dist)]).map (fun kv => kv.1)) =
              unvis univ (id :: anc.map (fun kv => kv.1)) := by
            apply unvis_congr
            intro x
            simp [or_comm]
          have hlen := parentIds_length_le data id
          simp only [List.length_append, List.length_map, List.length_cons] at hm ⊢
          omega

/-- With fuel at least `(maxDepth + 1 - currentDepth).toNat + 1`, the
depth-bounded ancestry recursion never runs out of fuel. -/
theorem buildAncestryTreeF_ne_none (data : GedcomData) (hp : List String) :
    ∀ (fuel : Nat) (personId : String) (c m : Int),
      (m + 1 - c).toNat + 1 ≤ fuel →
      buildAncestryTreeF data hp fuel personId c m ≠ none := by
  intro fuel
  induction fuel with
  | zero => intro _ _ _ hm; omega
  | succ f ih =>
    intro personId c m hm
    cases hper : findPerson data personId with
    | none =>
      rw [buildAncestryTreeF]
      simp [hper]
    | some person =>
      rw [buildAncestryTreeF]
      simp only [hper]
      by_cases hcm : c > m
      · simp [hcm]
      · rw [if_neg hcm]
        have hrec : ∀ x : String, buildAncestryTreeF data hp f x (c + 1) m ≠ none := by
          intro x
          apply ih
          omega
        cases hfc : truthyOptS person.famc with
        | none => simp [hfc]
        | some fid =>
          simp only [hfc]
          cases hff : findFamily data fid with
          | none => simp [hff]
          | some family =>
            simp only [hff]
            have hfa : (match truthyOptS family.husb with
                | none => some none
                | some h => buildAncestryTreeF data hp f h (c + 1) m) ≠ none := by
              cases truthyOptS family.husb with
              | none => simp
              | some h => exact hrec h
            have hmo : (match truthyOptS family.wife with
                | none => some none
                | some w => buildAncestryTreeF data hp f w (c + 1) m) ≠ none := by
              cases truthyOptS family.wife with
              | none => simp
              | some w => exact hrec w
            rcases hfa2 : (match truthyOptS family.husb with
                | none => some none
                | some h => buildAncestryTreeF data hp f h (c + 1) m) with _ | fatherOpt
            · exact absurd hfa2 hfa
            · rcases hmo2 : (match truthyOptS family.wife with
                  | none => some none
                  | some w => buildAncestryTreeF data hp f w (c + 1) m) with _ | motherOpt
              · exact absurd hmo2 hmo
              · rw [hfa2, hmo2]
                simp

/-- C9: with the fuel they are deployed with, the BFS loop of
`findShortestPath` and the loop of `getAncestors` always run to
completion (their visited sets bound the work), and the depth-bounded
recursion of `buildAncestryTree` always runs to completion because the
depth strictly increases towards its bound. -/
theorem c9_termination :
    (∀ (data : GedcomData) (a b : String),
      bfsLoop data b (bfsFuel data) [(a, [a])] [a] ≠ none) ∧
    (∀ (data : GedcomData) (s : String),
      ancLoop data (ancFuel data s) [(s, 0)] [] ≠ none) ∧
    (∀ (data : GedcomData) (hp : List String) (personId : String) (c m : Int),
      buildAncestryTreeF data hp (depthFuel c m) personId c m ≠ none) := by
  refine ⟨bfsLoop_run_ne_none, ?_, ?_⟩
  · intro data s
    apply ancLoop_ne_none data ((s :: idUniverse data).dedup) (List.nodup_dedup _)
      (fun x y hy => List.mem_dedup.mpr (List.mem_cons_of_mem _ (parentIds_subset_univ hy)))
    · intro e he
      simp only [List.mem_singleton] at he
      subst he
      exact List.mem_dedup.mpr (List.mem_cons_self _ _)
    · simp only [ancFuel, List.map_nil, List.length_singleton]
      have h2 : unvis ((s :: idUniverse data).dedup) [] ≤
          ((s :: idUniverse data).dedup).length := List.length_filter_le _ _
      omega
  · intro data hp personId c m
    exact buildAncestryTreeF_ne_none data hp (depthFuel c m) personId c m (le_refl _)

/-! ### C6: getAncestors computes exact minimal parent-edge distances -/

/-- `ReachN data start n x`: `x` is reachable from `start` in exactly
`n` parent edges (`parentIds` steps). -/
inductive ReachN (data : GedcomData) (start : String) : Nat → String → Prop where
  | zero : ReachN data start 0 start
  | succ {n : Nat} {x y : String} : ReachN data start n x → y ∈ parentIds data x →
      ReachN data start (n + 1) y

theorem reachN_zero_eq {data : GedcomData} {start x : String}
    (h : ReachN data start 0 x) : x = start := by
  cases h
  rfl

theorem reachN_succ_inv {data : GedcomData} {start y : String} {n : Nat}
    (h : ReachN data start (n + 1) y) :
    ∃ x, ReachN data start n x ∧ y ∈ parentIds data x := by
  cases h with
  | succ hx hy => exact ⟨_, hx, hy⟩

theorem mem_keys_iff {α : Type} (m : List (String × α)) (x : String) :
    x ∈ m.map (fun kv => kv.1) ↔ ∃ e, (x, e) ∈ m := by
  constructor
  · intro h
    obtain ⟨kv, hkv, hx⟩ := List.mem_map.mp h
    exact ⟨kv.2, by rw [← hx]; exact hkv⟩
  · intro ⟨e, he⟩
    exact List.mem_map.mpr ⟨(x, e), he, rfl⟩

/-- The queue of `getAncestors` always holds some distances `D` followed
by some distances `D + 1`. -/
def QShape (queue : List (String × Nat)) : Prop :=
  ∃ D m k2, queue.map (fun kv => kv.2) =
    List.replicate m D ++ List.replicate k2 (D + 1)

theorem qshape_nil : QShape [] := ⟨0, 0, 0, rfl⟩

theorem qshape_pop {id : String} {d : Nat} {rest : List (String × Nat)}
    (h : QShape ((id, d) :: rest)) :
    (∀ x dx, (x, dx) ∈ rest → dx = d ∨ dx = d + 1) ∧
    (∃ m2 k2, rest.map (fun kv => kv.2) =
      List.replicate m2 d ++ List.replicate k2 (d + 1)) := by
  obtain ⟨D, m, k2, hsh⟩ := h
  simp only [List.map_cons] at hsh
  have hmemd : ∀ x dx, (x, dx) ∈ rest → dx ∈ rest.map (fun kv => kv.2) := by
    intro x dx hx
    exact List.mem_map.mpr ⟨(x, dx), hx, rfl⟩
  cases m with
  | zero =>
    simp only [List.replicate_zero, List.nil_append] at hsh
    cases k2 with
    | zero => simp at hsh
    | succ k2a =>
      rw [List.replicate_succ] at hsh
      injection hsh with h1 h2
      subst h1
      constructor
      · intro x dx hx
        have := hmemd x dx hx
        rw [h2] at this
        exact Or.inl (List.eq_of_mem_replicate this)
      · exact ⟨k2a, 0, by simp [h2]⟩
  | succ ma =>
    rw [List.replicate_succ, List.cons_append] at hsh
    injection hsh with h1 h2
    subst h1
    constructor
    · intro x dx hx
      have := hmemd x dx hx
      rw [h2] at this
      rcases List.mem_append.mp this with hh | hh
      · exact Or.inl (List.eq_of_mem_replicate hh)
      · exact Or.inr (List.eq_of_mem_replicate hh)
    · exact ⟨ma, k2, h2⟩

theorem qshape_head_min {i2 : String} {d2 : Nat} {rest2 : List (String × Nat)}
    (h : QShape ((i2, d2) :: rest2)) :
    ∀ x dx, (x, dx) ∈ (i2, d2) :: rest2 → d2 ≤ dx := by
  intro x dx hx
  rcases List.mem_cons.mp hx with heq | hmem
  · injection heq with _ h2
    omega
  · rcases (qshape_pop h).1 x dx hmem with h3 | h3 <;> omega

theorem map_snd_pushes (l : List String) (d : Nat) :
    (l.map (fun pid => (pid, d))).map (fun kv : String × Nat => kv.2) =
      List.replicate l.length d := by
  induction l with
  | nil => rfl
  | cons a rest ih => simp [List.replicate_succ, ih]

/-- The full loop invariant of `getAncestors`. -/
structure AncInv (data : GedcomData) (start : String)
    (queue : List (String × Nat)) (anc : List (String × Nat)) : Prop where
  nodup : (anc.map (fun kv => kv.1)).Nodup
  exact : ∀ a e, (a, e) ∈ anc → ReachN data start e a ∧
    ∀ k, ReachN data start k a → e ≤ k
  qsound : ∀ x dx, (x, dx) ∈ queue → ReachN data start dx x
  shape : QShape queue
  closure : ∀ a e, (a, e) ∈ anc → ∀ y ∈ parentIds data a,
    y ∈ anc.map (fun kv => kv.1) ∨ (y, e + 1) ∈ queue
  startin : (start, 0) ∈ queue ∨ start ∈ anc.map (fun kv => kv.1)
  front : ∀ id d rest, queue = (id, d) :: rest →
    ∀ x k, ReachN data start k x → k < d → x ∈ anc.map (fun kv => kv.1)

/-- Key step of the BFS distance argument: once the whole queue sits at
distance at least `d + 1`, every node at distance at most `d` is
already in the map. -/
theorem front_of_closed {data : GedcomData} {start : String} {d : Nat}
    {queue2 : List (String × Nat)} {anc2 : List (String × Nat)}
    (hmin : ∀ x dx, (x, dx) ∈ queue2 → d + 1 ≤ dx)
    (hex2 : ∀ a e, (a, e) ∈ anc2 → ReachN data start e a ∧
      ∀ k, ReachN data start k a → e ≤ k)
    (hcl2 : ∀ a e, (a, e) ∈ anc2 → ∀ y ∈ parentIds data a,
      y ∈ anc2.map (fun kv => kv.1) ∨ (y, e + 1) ∈ queue2)
    (hst2 : (start, 0) ∈ queue2 ∨ start ∈ anc2.map (fun kv => kv.1))
    (hlow : ∀ x k, ReachN data start k x → k < d → x ∈ anc2.map (fun kv => kv.1)) :
    ∀ x k, ReachN data start k x → k < d + 1 → x ∈ anc2.map (fun kv => kv.1) := by
  intro x k hr hk
  by_cases hkd : k < d
  · exact hlow x k hr hkd
  · have hkd2 : k = d := by omega
    cases hr with
    | zero =>
      rcases hst2 with hq | hkk
      · have := hmin start 0 hq
        omega
      · exact hkk
    | succ hw hxw =>
      rename_i n w
      have hwk : w ∈ anc2.map (fun kv => kv.1) := hlow w n hw (by omega)
      obtain ⟨e, hwe⟩ := (mem_keys_iff _ _).mp hwk
      have hen : e ≤ n := (hex2 w e hwe).2 n hw
      rcases hcl2 w e hwe x hxw with hxk | hxq
      · exact hxk
      · have := hmin x (e + 1) hxq
        omega

/-- Dequeuing an id already in the map preserves the invariant. -/
theorem ancInv_skip {data : GedcomData} {start id : String} {d : Nat}
    {rest : List (String × Nat)} {anc : List (String × Nat)}
    (hinv : AncInv data start ((id, d) :: rest) anc)
    (hhas : id ∈ anc.map (fun kv => kv.1)) :
    AncInv data start rest anc := by
  obtain ⟨hnd, hex, hqs, hsh, hcl, hst, hfr⟩ := hinv
  have hpop := qshape_pop hsh
  obtain ⟨m2, k2, hrsh⟩ := hpop.2
  have hshape2 : QShape rest := ⟨d, m2, k2, hrsh⟩
  have hqs2 : ∀ x dx, (x, dx) ∈ rest → ReachN data start dx x :=
    fun x dx hx => hqs x dx (List.mem_cons_of_mem _ hx)
  have hcl2 : ∀ a e, (a, e) ∈ anc → ∀ y ∈ parentIds data a,
      y ∈ anc.map (fun kv => kv.1) ∨ (y, e + 1) ∈ rest := by
    intro a e hae y hy
    rcases hcl a e hae y hy with hk | hq
    · exact Or.inl hk
    · rcases List.mem_cons.mp hq with heq | hmem2
      · injection heq with h1 _
        exact Or.inl (h1 ▸ hhas)
      · exact Or.inr hmem2
  have hst2 : (start, 0) ∈ rest ∨ start ∈ anc.map (fun kv => kv.1) := by
    rcases hst with hq | hk
    · rcases List.mem_cons.mp hq with heq | hmem2
      · injection heq with h1 _
        exact Or.inr (h1 ▸ hhas)
      · exact Or.inl hmem2
    · exact Or.inr hk
  refine ⟨hnd, hex, hqs2, hshape2, hcl2, hst2, ?_⟩
  intro id2 d2 rest2 hq2 x k hr hk
  have hmemhead : (id2, d2) ∈ rest := by
    rw [hq2]
    exact List.mem_cons_self _ _
  rcases hpop.1 id2 d2 hmemhead with hd2 | hd2
  · exact hfr id d rest rfl x k hr (by omega)
  · subst hd2
    have hmin : ∀ x dx, (x, dx) ∈ rest → d + 1 ≤ dx := by
      rw [hq2]
      exact qshape_head_min (hq2 ▸ hshape2)
    exact front_of_closed hmin hex hcl2 hst2
      (fun x2 k2a hr2 hk2 => hfr id d rest rfl x2 k2a hr2 hk2) x k hr hk

/-- Dequeuing a fresh id records its exact minimal distance and pushes
its parents; the invariant is preserved. -/
theorem ancInv_add {data : GedcomData} {start id : String} {d : Nat}
    {rest : List (String × Nat)} {anc : List (String × Nat)}
    (hinv : AncInv data start ((id, d) :: rest) anc)
    (hhas : id ∉ anc.map (fun kv => kv.1)) :
    AncInv data start
      (rest ++ (parentIds data id).map (fun pid => (pid, d + 1)))
      (anc ++ [(id, d)]) := by
  obtain ⟨hnd, hex, hqs, hsh, hcl, hst, hfr⟩ := hinv
  have hpop := qshape_pop hsh
  obtain ⟨m2, k2, hrsh⟩ := hpop.2
  have hRid : ReachN data start d id := hqs id d (List.mem_cons_self _ _)
  have hexid : ∀ k, ReachN data start k id → d ≤ k := by
    intro k hk
    by_contra hlt
    push_neg at hlt
    exact hhas (hfr id d rest rfl id k hk hlt)
  have hkeys : (anc ++ [(id, d)]).map (fun kv => kv.1) =
      anc.map (fun kv => kv.1) ++ [id] := by simp
  have hsub : ∀ x, x ∈ anc.map (fun kv => kv.1) →
      x ∈ (anc ++ [(id, d)]).map (fun kv => kv.1) := by
    intro x hx
    rw [hkeys]
    exact List.mem_append_left _ hx
  have hidk : id ∈ (anc ++ [(id, d)]).map (fun kv => kv.1) := by
    rw [hkeys]
    simp
  have hnd2 : ((anc ++ [(id, d)]).map (fun kv => kv.1)).Nodup := by
    rw [hkeys, List.nodup_append]
    exact ⟨hnd, List.nodup_singleton _, by
      intro x hx
      simp only [List.mem_singleton]
      intro hc
      exact hhas (hc ▸ hx)⟩
  have hex2 : ∀ a e, (a, e) ∈ anc ++ [(id, d)] → ReachN data start e a ∧
      ∀ k, ReachN data start k a → e ≤ k := by
    intro a e hae
    rcases List.mem_append.mp hae with h | h
    · exact hex a e h
    · simp only [List.mem_singleton, Prod.mk.injEq] at h
      obtain ⟨rfl, rfl⟩ := h
      exact ⟨hRid, hexid⟩
  have hqs2 : ∀ x dx,
      (x, dx) ∈ rest ++ (parentIds data id).map (fun pid => (pid, d + 1)) →
      ReachN data start dx x := by
    intro x dx hx
    rcases List.mem_append.mp hx with h | h
    · exact hqs x dx (List.mem_cons_of_mem _ h)
    · obtain ⟨pid, hpid, heq⟩ := List.mem_map.mp h
      injection heq with h1 h2
      subst h1; subst h2
      exact ReachN.succ hRid hpid
  have hsh2 : QShape (rest ++ (parentIds data id).map (fun pid => (pid, d + 1))) := by
    refine ⟨d, m2, k2 + (parentIds data id).length, ?_⟩
    rw [List.map_append, hrsh, map_snd_pushes, List.replicate_add, List.append_assoc]
  have hcl2 : ∀ a e, (a, e) ∈ anc ++ [(id, d)] → ∀ y ∈ parentIds data a,
      y ∈ (anc ++ [(id, d)]).map (fun kv => kv.1) ∨
      (y, e + 1) ∈ rest ++ (parentIds data id).map (fun pid => (pid, d + 1)) := by
    intro a e hae y hy
    rcases List.mem_append.mp hae with h | h
    · rcases hcl a e h y hy with hk | hq
      · exact Or.inl (hsub y hk)
      · rcases List.mem_cons.mp hq with heq | hmem2
        · injection heq with h1 _
          exact Or.inl (h1 ▸ hidk)
        · exact Or.inr (List.mem_append_left _ hmem2)
    · simp only [List.mem_singleton, Prod.mk.injEq] at h
      obtain ⟨rfl, rfl⟩ := h
      exact Or.inr (List.mem_append_right _ (List.mem_map.mpr ⟨y, hy, rfl⟩))
  have hst2 : (start, 0) ∈ rest ++ (parentIds data id).map (fun pid => (pid, d + 1)) ∨
      start ∈ (anc ++ [(id, d)]).map (fun kv => kv.1) := by
    rcases hst with hq | hk
    · rcases List.mem_cons.mp hq with heq | hmem2
      · injection heq with h1 _
        exact Or.inr (h1 ▸ hidk)
      · exact Or.inl (List.mem_append_left _ hmem2)
    · exact Or.inr (hsub start hk)
  refine ⟨hnd2, hex2, hqs2, hsh2, hcl2, hst2, ?_⟩
  intro id2 d2 rest2 hq2 x k hr hk
  have hlow : ∀ x2 k2a, ReachN data start k2a x2 → k2a < d →
      x2 ∈ (anc ++ [(id, d)]).map (fun kv => kv.1) :=
    fun x2 k2a hr2 hk2 => hsub x2 (hfr id d rest rfl x2 k2a hr2 hk2)
  have hmemhead : (id2, d2) ∈ rest ++ (parentIds data id).map (fun pid => (pid, d + 1)) := by
    rw [hq2]
    exact List.mem_cons_self _ _
  have hd2 : d2 = d ∨ d2 = d + 1 := by
    rcases List.mem_append.mp hmemhead with h | h
    · exact hpop.1 id2 d2 h
    · obtain ⟨pid, _, heq⟩ := List.mem_map.mp h
      injection heq with _ h2
      exact Or.inr h2.symm
  rcases hd2 with hd2 | hd2
  · exact hlow x k hr (by omega)
  · subst hd2
    have hmin : ∀ x2 dx, (x2, dx) ∈ rest ++ (parentIds data id).map
        (fun pid => (pid, d + 1)) → d + 1 ≤ dx := by
      rw [hq2]
      exact qshape_head_min (hq2 ▸ hsh2)
    exact front_of_closed hmin hex2 hcl2 hst2 hlow x k hr hk

/-- The ancestor loop preserves its invariant to the end. -/
theorem ancLoop_inv (data : GedcomData) (start : String) :
    ∀ (fuel : Nat) (q anc m : List (String × Nat)),
      AncInv data start q anc → ancLoop data fuel q anc = some m →
      AncInv data start [] m := by
  intro fuel
  induction fuel with
  | zero =>
    intro q anc m hinv hr
    cases q with
    | nil =>
      simp only [ancLoop, Option.some.injEq] at hr
      exact hr ▸ hinv
    | cons e rest => simp [ancLoop] at hr
  | succ f ih =>
    intro q anc m hinv hr
    cases q with
    | nil =>
      simp only [ancLoop, Option.some.injEq] at hr
      exact hr ▸ hinv
    | cons e rest =>
      obtain ⟨id, dist⟩ := e
      rw [ancLoop] at hr
      by_cases hhas : (lookupStr anc id).isSome = true
      · rw [if_pos hhas] at hr
        exact ih rest anc m (ancInv_skip hinv ((lookupStr_isSome_iff anc id).mp hhas)) hr
      · rw [if_neg hhas] at hr
        refine ih _ _ m (ancInv_add hinv ?_) hr
        intro hc
        exact hhas ((lookupStr_isSome_iff anc id).mpr hc)

/-- The final invariant characterises the produced map exactly. -/
theorem ancInv_final (data : GedcomData) (start : String) (m : List (String × Nat))
    (hinv : AncInv data start [] m) :
    ∀ x d, lookupStr m x = some d ↔
      (ReachN data start d x ∧ ∀ k, ReachN data start k x → d ≤ k) := by
  obtain ⟨hnd, hex, _, _, hcl, hst, _⟩ := hinv
  have hreach : ∀ k x, ReachN data start k x → x ∈ m.map (fun kv => kv.1) := by
    intro k x hr
    induction hr with
    | zero =>
      rcases hst with h | h
      · simp at h
      · exact h
    | succ hw hy ihw =>
      obtain ⟨e, hwe⟩ := (mem_keys_iff _ _).mp ihw
      rcases hcl _ e hwe _ hy with hk | hq
      · exact hk
      · simp at hq
  intro x d
  constructor
  · intro h
    exact hex x d (lookupStr_some_mem h)
  · intro h
    obtain ⟨hrd, hmind⟩ := h
    have hxk : x ∈ m.map (fun kv => kv.1) := hreach d x hrd
    obtain ⟨e, hxe⟩ := (mem_keys_iff _ _).mp hxk
    have he := hex x e hxe
    have hed : e = d := le_antisymm (he.2 d hrd) (hmind e he.1)
    rw [mem_lookupStr_nodup hnd hxe, hed]

theorem ancLoop_run_ne_none (data : GedcomData) (s : String) :
    ancLoop data (ancFuel data s) [(s, 0)] [] ≠ none := by
  apply ancLoop_ne_none data ((s :: idUniverse data).dedup) (List.nodup_dedup _)
    (fun x y hy => List.mem_dedup.mpr (List.mem_cons_of_mem _ (parentIds_subset_univ hy)))
  · intro e he
    simp only [List.mem_singleton] at he
    subst he
    exact List.mem_dedup.mpr (List.mem_cons_self _ _)
  · simp only [ancFuel, List.map_nil, List.length_singleton]
    have h2 : unvis ((s :: idUniverse data).dedup) [] ≤
        ((s :: idUniverse data).dedup).length := List.length_filter_le _ _
    omega

/-- C6: `getAncestors` maps an id `x` to `d` exactly when `x` is
reachable from the start along parent edges and `d` is the minimal
number of such edges; in particular the start itself is mapped to 0,
and the map has no other entries. -/
theorem c6_get_ancestors_spec (data : GedcomData) (start : String) :
    lookupStr (getAncestors data start) start = some 0 ∧
    ∀ x d, lookupStr (getAncestors data start) x = some d ↔
      (ReachN data start d x ∧ ∀ k, ReachN data start k x → d ≤ k) := by
  cases hres : ancLoop data (ancFuel data start) [(start, 0)] [] with
  | none => exact absurd hres (ancLoop_run_ne_none data start)
  | some mm =>
    have hinit : AncInv data start [(start, 0)] [] := by
      refine ⟨by simp, by simp, ?_, ⟨0, 1, 0, by simp⟩, by simp, Or.inl (by simp), ?_⟩
      · intro x dx h
        simp only [List.mem_singleton, Prod.mk.injEq] at h
        obtain ⟨rfl, rfl⟩ := h
        exact ReachN.zero
      · intro id d rest hq x k hr hk
        have : d = 0 := by
          have := congrArg (fun l => l.map (fun kv : String × Nat => kv.2)) hq
          simp at this
          omega
        omega
    have hfin := ancLoop_inv data start (ancFuel data start) [(start, 0)] [] mm hinit hres
    have hiff := ancInv_final data start mm hfin
    have hga : getAncestors data start = mm := by
      rw [getAncestors, hres]
      rfl
    rw [hga]
    exact ⟨(hiff start 0).mpr ⟨ReachN.zero, fun k _ => Nat.zero_le k⟩, hiff⟩

/-! ### C5: the relationship label for blood relatives -/

theorem truthyToList_ne_empty {o : Option String} {y : String}
    (hy : y ∈ truthyToList o) : y ≠ "" := by
  rcases o with _ | s
  · simp [truthyToList, truthyOptS] at hy
  · by_cases hs : s = ""
    · simp [truthyToList, truthyOptS, hs] at hy
    · simp only [truthyToList, truthyOptS, if_neg hs, List.mem_singleton] at hy
      exact hy ▸ hs

theorem parentIds_ne_empty {data : GedcomData} {x y : String}
    (hy : y ∈ parentIds data x) : y ≠ "" := by
  rw [parentIds] at hy
  rcases hp : findPerson data x with _ | person
  · simp [hp] at hy
  · simp only [hp] at hy
    rcases hfc : truthyOptS person.famc with _ | fid
    · simp [hfc] at hy
    · simp only [hfc] at hy
      rcases hff : findFamily data fid with _ | fam
      · simp [hff] at hy
      · simp only [hff] at hy
        rcases List.mem_append.mp hy with h | h
        · exact truthyToList_ne_empty h
        · exact truthyToList_ne_empty h

/-- The loop invariant holds for the map `getAncestors` returns. -/
theorem getAncestors_inv (data : GedcomData) (s : String) :
    AncInv data s [] (getAncestors data s) := by
  cases hres : ancLoop data (ancFuel data s) [(s, 0)] [] with
  | none => exact absurd hres (ancLoop_run_ne_none data s)
  | some mm =>
    have hinit : AncInv data s [(s, 0)] [] := by
      refine ⟨by simp, by simp, ?_, ⟨0, 1, 0, by simp⟩, by simp, Or.inl (by simp), ?_⟩
      · intro x dx h
        simp only [List.mem_singleton, Prod.mk.injEq] at h
        obtain ⟨rfl, rfl⟩ := h
        exact ReachN.zero
      · intro id d rest hq x k hr hk
        have : d = 0 := by
          have := congrArg (fun l => l.map (fun kv : String × Nat => kv.2)) hq
          simp at this
          omega
        omega
    have hga : getAncestors data s = mm := by
      rw [getAncestors, hres]
      rfl
    rw [hga]
    exact ancLoop_inv data s (ancFuel data s) [(s, 0)] [] mm hinit hres

/-- Keys of the ancestor map are the start id or non-empty strings. -/
theorem getAncestors_keys_ne_empty (data : GedcomData) (s : String) :
    ∀ k ∈ (getAncestors data s).map (fun kv => kv.1), k = s ∨ k ≠ "" := by
  intro k hk
  obtain ⟨e, he⟩ := (mem_keys_iff _ _).mp hk
  have hr := ((getAncestors_inv data s).exact k e he).1
  cases hr with
  | zero => exact Or.inl rfl
  | succ hw hy => exact Or.inr (parentIds_ne_empty hy)

/-- Coherence of the `(lcaId, minSum)` accumulator of the scan. -/
def lcaAcc (ansB ansT : List (String × Nat)) (lca0 : Option String)
    (min0 : Option Nat) : Prop :=
  (lca0 = none ∧ min0 = none) ∨
  (∃ c s dB dT, lca0 = some c ∧ min0 = some s ∧
    lookupStr ansB c = some dB ∧ lookupStr ansT c = some dT ∧ dB + dT = s)

theorem lcaScan_spec (ansB ansT : List (String × Nat)) :
    ∀ (l : List (String × Nat)) (lca0 : Option String) (min0 : Option Nat),
      (∀ p ∈ l, lookupStr ansB p.1 = some p.2) →
      lcaAcc ansB ansT lca0 min0 →
      lcaAcc ansB ansT (lcaScan ansT l lca0 min0).1 (lcaScan ansT l lca0 min0).2 ∧
      (∀ p ∈ l, ∀ dT, lookupStr ansT p.1 = some dT →
        ∃ s, (lcaScan ansT l lca0 min0).2 = some s ∧ s ≤ p.2 + dT) ∧
      (∀ s0, min0 = some s0 →
        ∃ s, (lcaScan ansT l lca0 min0).2 = some s ∧ s ≤ s0) := by
  intro l
  induction l with
  | nil =>
    intro lca0 min0 _ hacc
    refine ⟨hacc, by simp, ?_⟩
    intro s0 h
    exact ⟨s0, h, le_refl _⟩
  | cons p rest ih =>
    intro lca0 min0 hl hacc
    obtain ⟨id, dB⟩ := p
    have hlb : lookupStr ansB id = some dB := hl (id, dB) (List.mem_cons_self _ _)
    have hlrest : ∀ p ∈ rest, lookupStr ansB p.1 = some p.2 :=
      fun p hp => hl p (List.mem_cons_of_mem _ hp)
    cases hT : lookupStr ansT id with
    | none =>
      simp only [lcaScan, hT]
      obtain ⟨ha, hb, hc⟩ := ih lca0 min0 hlrest hacc
      refine ⟨ha, ?_, hc⟩
      intro p hp dT hdT
      rcases List.mem_cons.mp hp with heq | hmem
      · rw [heq] at hdT
        simp only at hdT
        rw [hdT] at hT
        cases hT
      · exact hb p hmem dT hdT
    | some dT =>
      simp only [lcaScan, hT]
      by_cases hlt : ltInf (dB + dT) min0 = true
      · rw [if_pos hlt]
        have hacc2 : lcaAcc ansB ansT (some id) (some (dB + dT)) :=
          Or.inr ⟨id, dB + dT, dB, dT, rfl, rfl, hlb, hT, rfl⟩
        obtain ⟨ha, hb, hc⟩ := ih (some id) (some (dB + dT)) hlrest hacc2
        refine ⟨ha, ?_, ?_⟩
        · intro p hp dT2 hdT2
          rcases List.mem_cons.mp hp with heq | hmem
          · rw [heq] at hdT2 ⊢
            simp only at hdT2 ⊢
            rw [hdT2] at hT
            injection hT with hT2
            obtain ⟨s, hs1, hs2⟩ := hc (dB + dT) rfl
            exact ⟨s, hs1, by omega⟩
          · exact hb p hmem dT2 hdT2
        · intro s0 hs0
          obtain ⟨s, hs1, hs2⟩ := hc (dB + dT) rfl
          rw [hs0] at hlt
          simp only [ltInf, decide_eq_true_eq] at hlt
          exact ⟨s, hs1, by omega⟩
      · rw [if_neg hlt]
        have hmin0 : ∃ s0, min0 = some s0 ∧ s0 ≤ dB + dT := by
          cases hm : min0 with
          | none => rw [hm] at hlt; simp [ltInf] at hlt
          | some s0 =>
            rw [hm] at hlt
            simp only [ltInf, decide_eq_true_eq] at hlt
            exact ⟨s0, rfl, by omega⟩
        obtain ⟨s0, hs0, hs0le⟩ := hmin0
        obtain ⟨ha, hb, hc⟩ := ih lca0 min0 hlrest hacc
        refine ⟨ha, ?_, hc⟩
        intro p hp dT2 hdT2
        rcases List.mem_cons.mp hp with heq | hmem
        · rw [heq] at hdT2 ⊢
          simp only at hdT2 ⊢
          rw [hdT2] at hT
          injection hT with hT2
          obtain ⟨s, hs1, hs2⟩ := hc s0 hs0
          exact ⟨s, hs1, by omega⟩
        · exact hb p hmem dT2 hdT2

/-- C5: for distinct ids that are not direct spouses, when the two
ancestor-distance maps share an id, `getRelationshipName` picks a
common id minimising the sum of the two distances and returns the band
label (`bandLabel`) of its pair (steps up from base, steps down to
target). -/
theorem c5_relationship_bands (data : GedcomData) (baseId targetId : String)
    (hne : baseId ≠ targetId)
    (hsp : directSpouse data baseId targetId = false)
    (hcommon : ∃ c, c ∈ (getAncestors data baseId).map (fun kv => kv.1) ∧
      c ∈ (getAncestors data targetId).map (fun kv => kv.1)) :
    ∃ lca dUp dDown,
      lookupStr (getAncestors data baseId) lca = some dUp ∧
      lookupStr (getAncestors data targetId) lca = some dDown ∧
      (∀ c dB dT, lookupStr (getAncestors data baseId) c = some dB →
        lookupStr (getAncestors data targetId) c = some dT → dUp + dDown ≤ dB + dT) ∧
      getRelationshipName data baseId targetId = bandLabel dUp dDown := by
  have hnodB : ((getAncestors data baseId).map (fun kv => kv.1)).Nodup :=
    (getAncestors_inv data baseId).nodup
  have hnodT : ((getAncestors data targetId).map (fun kv => kv.1)).Nodup :=
    (getAncestors_inv data targetId).nodup
  have hl : ∀ p ∈ getAncestors data baseId,
      lookupStr (getAncestors data baseId) p.1 = some p.2 := by
    intro p hp
    obtain ⟨k, v⟩ := p
    exact mem_lookupStr_nodup hnodB hp
  have hscan := lcaScan_spec (getAncestors data baseId) (getAncestors data targetId)
    (getAncestors data baseId) none none hl (Or.inl ⟨rfl, rfl⟩)
  obtain ⟨c0, hc0B, hc0T⟩ := hcommon
  obtain ⟨dB0, hdB0⟩ := (mem_keys_iff _ _).mp hc0B
  obtain ⟨dT0, hdT0⟩ := (mem_keys_iff _ _).mp hc0T
  have hlookT : lookupStr (getAncestors data targetId) c0 = some dT0 :=
    mem_lookupStr_nodup hnodT hdT0
  obtain ⟨smin, hsmin, _⟩ := hscan.2.1 (c0, dB0) hdB0 dT0 hlookT
  rcases hscan.1 with ⟨_, h2⟩ | ⟨c, s, dB, dT, hlca, hmin, hlB, hlT, hsum⟩
  · rw [h2] at hsmin
    cases hsmin
  · have hcB : c ∈ (getAncestors data baseId).map (fun kv => kv.1) :=
      (mem_keys_iff _ _).mpr ⟨dB, lookupStr_some_mem hlB⟩
    have hcT : c ∈ (getAncestors data targetId).map (fun kv => kv.1) :=
      (mem_keys_iff _ _).mpr ⟨dT, lookupStr_some_mem hlT⟩
    have hcne : c ≠ "" := by
      rcases getAncestors_keys_ne_empty data baseId c hcB with h | h
      · rcases getAncestors_keys_ne_empty data targetId c hcT with h2 | h2
        · exact absurd (h.symm ▸ h2 : baseId = targetId) hne
        · exact h2
      · exact h
    refine ⟨c, dB, dT, hlB, hlT, ?_, ?_⟩
    · intro c2 dB2 dT2 hB2 hT2
      obtain ⟨s2, hs2, hs2le⟩ := hscan.2.1 (c2, dB2) (lookupStr_some_mem hB2) dT2 hT2
      rw [hmin] at hs2
      injection hs2 with hs2
      omega
    · rw [getRelationshipName, if_neg hne]
      simp only [hsp, Bool.false_eq_true, if_false, hlca, truthyOptS, if_neg hcne,
        hlB, hlT, Option.getD_some]

/-- Concrete instantiation of `c5_relationship_bands` on `lcaData`:
`p` is the parent of `a`, and the label is the (1,0) band. -/
theorem c5_relationship_bands_witness :
    ∃ lca dUp dDown,
      lookupStr (getAncestors lcaData "a") lca = some dUp ∧
      lookupStr (getAncestors lcaData "p") lca = some dDown ∧
      (∀ c dB dT, lookupStr (getAncestors lcaData "a") c = some dB →
        lookupStr (getAncestors lcaData "p") c = some dT → dUp + dDown ≤ dB + dT) ∧
      getRelationshipName lcaData "a" "p" = bandLabel dUp dDown :=
  c5_relationship_bands lcaData "a" "p" (by decide) (by decide)
    ⟨"p", by decide, by decide⟩

/-! ### C7: duplicate children in the descendant tree -/

/-- Every person record's `id` field equals its key in the people map
(the parser always produces such graphs). -/
def peopleIdConsistent (data : GedcomData) : Bool :=
  data.people.all (fun kv => kv.2.id == kv.1)

theorem findPerson_id {data : GedcomData} {k : String} {p : Person}
    (hc : peopleIdConsistent data = true) (h : findPerson data k = some p) :
    p.id = k := by
  have hmem := lookupStr_some_mem h
  have := List.all_eq_true.mp hc (k, p) hmem
  simpa using this

/-- Every node of the tree has pairwise-distinct children ids. -/
inductive WellFormedT : TreeNodeDatum → Prop where
  | mk : ∀ (t : TreeNodeDatum),
      (t.children.map (fun c => c.id)).Nodup →
      (∀ c ∈ t.children, WellFormedT c) → WellFormedT t

theorem setSpouseFlag_id (t : TreeNodeDatum) : (setSpouseFlag t).id = t.id := by
  cases t
  rfl

theorem wellFormedT_setSpouseFlag {t : TreeNodeDatum} (h : WellFormedT t) :
    WellFormedT (setSpouseFlag t) := by
  cases t
  cases h
  exact WellFormedT.mk _ (by assumption) (by assumption)

theorem descChildFold_inv (F : String → Option (Option TreeNodeDatum))
    (hF : ∀ cid t, F cid = some (some t) → WellFormedT t ∧ t.id = cid) :
    ∀ (l added2nodes : List String) (nodes : List TreeNodeDatum)
      (added2 : List String) (nodes2 : List TreeNodeDatum),
      descChildFold F l (added2nodes, nodes) = some (added2, nodes2) →
      (nodes.map (fun c => c.id)).Nodup →
      (∀ c ∈ nodes, WellFormedT c) →
      (∀ c ∈ nodes, c.id ∈ added2nodes) →
      (nodes2.map (fun c => c.id)).Nodup ∧ (∀ c ∈ nodes2, WellFormedT c) ∧
      (∀ c ∈ nodes2, c.id ∈ added2) := by
  intro l
  induction l with
  | nil =>
    intro added nodes a2 n2 h hnd hwf hin
    simp only [descChildFold, Option.some.injEq, Prod.mk.injEq] at h
    obtain ⟨h1, h2⟩ := h
    subst h1
    subst h2
    exact ⟨hnd, hwf, hin⟩
  | cons cid rest ih =>
    intro added nodes a2 n2 h hnd hwf hin
    rw [descChildFold] at h
    by_cases hmem : cid ∈ added
    · rw [if_pos hmem] at h
      exact ih added nodes a2 n2 h hnd hwf hin
    · rw [if_neg hmem] at h
      cases hF2 : F cid with
      | none =>
        rw [hF2] at h
        cases h
      | some o =>
        rw [hF2] at h
        cases o with
        | none => exact ih added nodes a2 n2 h hnd hwf hin
        | some childNode =>
          obtain ⟨hwfc, hidc⟩ := hF cid childNode hF2
          refine ih (cid :: added) (nodes ++ [childNode]) a2 n2 h ?_ ?_ ?_
          · rw [List.map_append, List.nodup_append]
            refine ⟨hnd, by simp, ?_⟩
            intro x hx
            simp only [List.map_cons, List.map_nil, List.mem_singleton]
            intro hc
            obtain ⟨cnode, hcn, hcnid⟩ := List.mem_map.mp hx
            rw [hc, hidc] at hcnid
            exact hmem (hcnid ▸ hin cnode hcn)
          · intro cnode hcn
            rcases List.mem_append.mp hcn with hcn2 | hcn2
            · exact hwf cnode hcn2
            · simp only [List.mem_singleton] at hcn2
              exact hcn2 ▸ hwfc
          · intro cnode hcn
            rcases List.mem_append.mp hcn with hcn2 | hcn2
            · exact List.mem_cons_of_mem _ (hin cnode hcn2)
            · simp only [List.mem_singleton] at hcn2
              rw [hcn2, hidc]
              exact List.mem_cons_self _ _

theorem descSpouseFold_inv (data : GedcomData) (person : Person)
    (F : String → Option (Option TreeNodeDatum))
    (hF : ∀ cid t, F cid = some (some t) → WellFormedT t ∧ t.id = cid) :
    ∀ (l added0 : List String) (nodes : List TreeNodeDatum)
      (added2 : List String) (nodes2 : List TreeNodeDatum),
      descSpouseFold data person F l (added0, nodes) = some (added2, nodes2) →
      (nodes.map (fun c => c.id)).Nodup →
      (∀ c ∈ nodes, WellFormedT c) →
      (∀ c ∈ nodes, c.id ∈ added0) →
      (nodes2.map (fun c => c.id)).Nodup ∧ (∀ c ∈ nodes2, WellFormedT c) ∧
      (∀ c ∈ nodes2, c.id ∈ added2) := by
  intro l
  induction l with
  | nil =>
    intro added nodes a2 n2 h hnd hwf hin
    simp only [descSpouseFold, Option.some.injEq, Prod.mk.injEq] at h
    obtain ⟨h1, h2⟩ := h
    subst h1
    subst h2
    exact ⟨hnd, hwf, hin⟩
  | cons tid rest ih =>
    intro added nodes a2 n2 h hnd hwf hin
    rw [descSpouseFold] at h
    by_cases hmem : tid ∈ added
    · rw [if_pos hmem] at h
      exact ih added nodes a2 n2 h hnd hwf hin
    · rw [if_neg hmem] at h
      by_cases hspo : (person.fams.any (fun famId =>
          match findFamily data famId with
          | none => false
          | some fam => fam.husb == some tid || fam.wife == some tid)) = true
      · rw [if_pos hspo] at h
        cases hF2 : F tid with
        | none =>
          rw [hF2] at h
          cases h
        | some o =>
          rw [hF2] at h
          cases o with
          | none => exact ih added nodes a2 n2 h hnd hwf hin
          | some spouseNode =>
            obtain ⟨hwfc, hidc⟩ := hF tid spouseNode hF2
            refine ih (tid :: added) (nodes ++ [setSpouseFlag spouseNode]) a2 n2 h ?_ ?_ ?_
            · rw [List.map_append, List.nodup_append]
              refine ⟨hnd, by simp, ?_⟩
              intro x hx
              simp only [List.map_cons, List.map_nil, List.mem_singleton]
              intro hc
              obtain ⟨cnode, hcn, hcnid⟩ := List.mem_map.mp hx
              rw [hc, setSpouseFlag_id, hidc] at hcnid
              exact hmem (hcnid ▸ hin cnode hcn)
            · intro cnode hcn
              rcases List.mem_append.mp hcn with hcn2 | hcn2
              · exact hwf cnode hcn2
              · simp only [List.mem_singleton] at hcn2
                exact hcn2 ▸ wellFormedT_setSpouseFlag hwfc
            · intro cnode hcn
              rcases List.mem_append.mp hcn with hcn2 | hcn2
              · exact List.mem_cons_of_mem _ (hin cnode hcn2)
              · simp only [List.mem_singleton] at hcn2
                rw [hcn2, setSpouseFlag_id, hidc]
                exact List.mem_cons_self _ _
      · rw [if_neg hspo] at h
        exact ih added nodes a2 n2 h hnd hwf hin

theorem buildDescendantsTreeF_node_id (data : GedcomData) (hpath : List String)
    (hid : peopleIdConsistent data = true) :
    ∀ (fuel : Nat) (personId : String) (c m : Int) (t : TreeNodeDatum),
      buildDescendantsTreeF data hpath fuel personId c m = some (some t) →
      t.id = personId := by
  intro fuel personId c m t h
  cases fuel with
  | zero => simp [buildDescendantsTreeF] at h
  | succ f =>
    rw [buildDescendantsTreeF] at h
    cases hp : findPerson data personId with
    | none =>
      simp only [hp, Option.some.injEq] at h
      cases h
    | some person =>
      simp only [hp] at h
      by_cases hcm : c > m
      · simp only [if_pos hcm, Option.some.injEq] at h
        cases h
      · rw [if_neg hcm] at h
        cases hfold : descChildFold
            (fun cid => buildDescendantsTreeF data hpath f cid (c + 1) m)
            (person.fams.flatMap (fun famId =>
              match findFamily data famId with
              | none => []
              | some fam => fam.children))
            ([], []) with
        | none =>
          rw [hfold] at h
          cases h
        | some pr =>
          obtain ⟨added, nodes⟩ := pr
          simp only [hfold] at h
          by_cases hhp : hpath.length > 0 ∧ personId ∈ hpath
          · rw [if_pos hhp] at h
            cases hsf : descSpouseFold data person
                (fun tid => buildDescendantsTreeF data hpath f tid (c + 1) m)
                (truthyToList (hpath.get? (hpath.indexOf personId + 1)) ++
                 truthyToList (if hpath.indexOf personId = 0 then none
                   else hpath.get? (hpath.indexOf personId - 1)))
                (added, nodes) with
            | none =>
              rw [hsf] at h
              cases h
            | some pr2 =>
              obtain ⟨added2, nodes2⟩ := pr2
              simp only [hsf, Option.some.injEq] at h
              rw [← h]
              exact findPerson_id hid hp
          · rw [if_neg hhp] at h
            simp only [Option.some.injEq] at h
            rw [← h]
            exact findPerson_id hid hp

theorem buildDescendantsTreeF_wf (data : GedcomData) (hpath : List String)
    (hid : peopleIdConsistent data = true) :
    ∀ (fuel : Nat) (personId : String) (c m : Int) (t : TreeNodeDatum),
      buildDescendantsTreeF data hpath fuel personId c m = some (some t) →
      WellFormedT t := by
  intro fuel
  induction fuel with
  | zero => intro _ _ _ t h; simp [buildDescendantsTreeF] at h
  | succ f ih =>
    intro personId c m t h
    have hF : ∀ cid t2, buildDescendantsTreeF data hpath f cid (c + 1) m = some (some t2) →
        WellFormedT t2 ∧ t2.id = cid := fun cid t2 h2 =>
      ⟨ih cid (c + 1) m t2 h2, buildDescendantsTreeF_node_id data hpath hid f cid (c + 1) m t2 h2⟩
    rw [buildDescendantsTreeF] at h
    cases hp : findPerson data personId with
    | none =>
      simp only [hp, Option.some.injEq] at h
      cases h
    | some person =>
      simp only [hp] at h
      by_cases hcm : c > m
      · simp only [if_pos hcm, Option.some.injEq] at h
        cases h
      · rw [if_neg hcm] at h
        cases hfold : descChildFold
            (fun cid => buildDescendantsTreeF data hpath f cid (c + 1) m)
            (person.fams.flatMap (fun famId =>
              match findFamily data famId with
              | none => []
              | some fam => fam.children))
            ([], []) with
        | none =>
          rw [hfold] at h
          cases h
        | some pr =>
          obtain ⟨added, nodes⟩ := pr
          simp only [hfold] at h
          have hch := descChildFold_inv _ hF _ [] [] added nodes hfold
            (by simp) (by simp) (by simp)
          by_cases hhp : hpath.length > 0 ∧ personId ∈ hpath
          · rw [if_pos hhp] at h
            cases hsf : descSpouseFold data person
                (fun tid => buildDescendantsTreeF data hpath f tid (c + 1) m)
                (truthyToList (hpath.get? (hpath.indexOf personId + 1)) ++
                 truthyToList (if hpath.indexOf personId = 0 then none
                   else hpath.get? (hpath.indexOf personId - 1)))
                (added, nodes) with
            | none =>
              rw [hsf] at h
              cases h
            | some pr2 =>
              obtain ⟨added2, nodes2⟩ := pr2
              simp only [hsf, Option.some.injEq] at h
              have hsp := descSpouseFold_inv data person _ hF _ added nodes added2 nodes2
                hsf hch.1 hch.2.1 hch.2.2
              rw [← h]
              exact WellFormedT.mk _ hsp.1 hsp.2.1
          · rw [if_neg hhp] at h
            simp only [Option.some.injEq] at h
            rw [← h]
            exact WellFormedT.mk _ hch.1 hch.2.1

/-- C7 amended: for graphs in which every person record's id equals its
people-map key (as `parseGedcom` guarantees), the children of every
node of the tree built by `buildDescendantsTree` are pairwise distinct
by person id, for any depth bound and highlighted path. -/
theorem c7_amended (data : GedcomData) (hid : peopleIdConsistent data = true)
    (personId : String) (currentDepth maxDepth : Int) (hpath : List String)
    (t : TreeNodeDatum)
    (h : buildDescendantsTree personId data currentDepth maxDepth hpath = some t) :
    WellFormedT t := by
  rw [buildDescendantsTree] at h
  cases hres : buildDescendantsTreeF data hpath (depthFuel currentDepth maxDepth)
      personId currentDepth maxDepth with
  | none =>
    rw [hres] at h
    cases h
  | some o =>
    rw [hres] at h
    cases o with
    | none => cases h
    | some t2 =>
      simp only [Option.getD_some, Option.some.injEq] at h
      rw [← h]
      exact buildDescendantsTreeF_wf data hpath hid _ personId currentDepth maxDepth t2 hres

/-- Two people-map keys `a`, `b` resolving to person records sharing
the id field `x`, both children of the family of `r`. -/
def dupData : GedcomData :=
  { people := [("r", { defaultPerson "r" with fams := ["F"] }),
               ("a", { defaultPerson "a" with id := "x" }),
               ("b", { defaultPerson "b" with id := "x" })],
    families := [("F", { defaultFamily "F" with husb := some "r", children := ["a", "b"] })] }

/-- C7 counterexample: when two distinct people-map keys resolve to
person records with the same `id` field, the dedup (which is keyed on
the map keys) lets the same person id appear twice among one node's
children. -/
theorem c7_counterexample :
    (buildDescendantsTree "r" dupData 0 1 []).map
      (fun t => t.children.map (fun c => c.id)) = some ["x", "x"] ∧
    ¬ (["x", "x"] : List String).Nodup :=
  ⟨by rfl, by decide⟩

/-- `r` with one family `F` and one child `c`. -/
def oneChildData : GedcomData :=
  { people := [("r", { defaultPerson "r" with fams := ["F"] }),
               ("c", defaultPerson "c")],
    families := [("F", { defaultFamily "F" with husb := some "r", children := ["c"] })] }

/-- Concrete instantiation of `c7_amended` on `oneChildData`. -/
theorem c7_amended_witness :
    WellFormedT (TreeNodeDatum.mk "r" "Unknown " { defaultPerson "r" with fams := ["F"] }
      [TreeNodeDatum.mk "c" "Unknown " (defaultPerson "c") [] false] false) :=
  c7_amended oneChildData (by rfl) "r" 0 1 []
    (TreeNodeDatum.mk "r" "Unknown " { defaultPerson "r" with fams := ["F"] }
      [TreeNodeDatum.mk "c" "Unknown " (defaultPerson "c") [] false] false) (by rfl)

end FamilyTree
